import Mathlib

/-!
MicroCore: number formatting and line reading of `HalfDuplexSerial`, and the
timebase of wiring.c.

A shallow embedding of `avr/cores/microcore/HalfDuplexSerial.cpp` and
`avr/cores/microcore/wiring.c`.

* Machine integers are `Nat`/`Int` with explicit reductions modulo `2 ^ w`.
* A routine that writes bytes returns the list of bytes handed to `write`, in
  order, together with its C return value.
* A C loop is a structurally recursive function on a fuel argument and returns
  `none` when the fuel runs out, so `none` stands for a loop that does not
  terminate, a read through an unset pointer or of an unassigned variable, or
  an undefined conversion.
* An interrupt handler runs to completion and is an atomic event on the
  counters of wiring.c.  A function that reads a counter with interrupts
  disabled reads it at once; `millis()`, which leaves interrupts enabled, loads
  its counter byte by byte, and the handler can run between two loads.
* A `double` is the rational number it stands for, and a floating-point
  operation is the exact operation followed by a rounding that is a parameter:
  `id` for exact arithmetic, `binary32` for the arithmetic of the target.
* A preprocessor `#if` chain on `F_CPU` is a chain of `if`s on a parameter.
-/

namespace MicroCore

/-! ## Build configuration -/

/-- The three values of `PRINT_MAX_INT_TYPE`. -/
inductive PrintIntType where
  | byte
  | int
  | long
  deriving DecidableEq, Repr

/-- Width in bits of `UNSIGNED_PRINT_INT_TYPE` / `PRINT_INT_TYPE`. -/
def PrintIntType.bits : PrintIntType → Nat
  | .byte => 8
  | .int => 16
  | .long => 32

/-- The preprocessor switches the formatter depends on, together with the
program-memory bytes that lie behind the `digits` array (what
`pgm_read_byte(&digits[digit])` yields for an index past the array). -/
structure Config where
  intType : PrintIntType
  useBin : Bool
  useOct : Bool
  useDec : Bool
  useHex : Bool
  arbitrary : Bool
  flashAfter : Nat → Char

/-- Width in bits of the configured print integer type. -/
def Config.bits (cfg : Config) : Nat := cfg.intType.bits

/-! ## Table-driven `printNumber` -/

/-- `static const char digits[] PROGMEM = "0123456789ABCDEF";` (17 bytes, the
last one the terminating NUL). -/
def digits : List Char :=
  ['0', '1', '2', '3', '4', '5', '6', '7', '8', '9', 'A', 'B', 'C', 'D', 'E', 'F',
   Char.ofNat 0]

/-- `pgm_read_byte(&digits[digit])`. -/
def pgm_read_digit (flashAfter : Nat → Char) (digit : Nat) : Char :=
  match digits.get? digit with
  | some c => c
  | none => flashAfter digit

/-- The table `base2`. -/
def base2 (ty : PrintIntType) : List Nat :=
  (if ty = .long then
    [0x80000000, 0x40000000, 0x20000000, 0x10000000, 0x800000, 0x400000, 0x200000,
     0x100000, 0x80000, 0x40000, 0x20000, 0x10000]
   else []) ++
  (if ty = .long ∨ ty = .int then
    [0x8000, 0x4000, 0x2000, 0x1000, 0x800, 0x400, 0x200, 0x100]
   else []) ++
  [0x80, 0x40, 0x20, 0x10, 0x8, 0x4, 0x2, 0x1, 0]

/-- The table `base8`. -/
def base8 (ty : PrintIntType) : List Nat :=
  (if ty = .long then
    [0o10000000000, 0o1000000000, 0o100000000, 0o10000000, 0o1000000]
   else []) ++
  (if ty = .long ∨ ty = .int then [0o100000, 0o10000, 0o1000] else []) ++
  [0o100, 0o10, 0o1, 0]

/-- The table `base10`. -/
def base10 (ty : PrintIntType) : List Nat :=
  (if ty = .long then [1000000000, 100000000, 10000000, 1000000, 100000] else []) ++
  (if ty = .long ∨ ty = .int then [10000, 1000] else []) ++
  [100, 10, 1, 0]

/-- The table `base16`. -/
def base16 (ty : PrintIntType) : List Nat :=
  (if ty = .long then [0x10000000, 0x1000000, 0x100000, 0x010000] else []) ++
  (if ty = .long ∨ ty = .int then [0x1000, 0x0100] else []) ++
  [0x10, 0x01, 0]

/-- The inner loop `while (n >= b) { digit++; n = n - b; }` with `digit` a
`uint8_t`; returns the final `(digit, n)`. -/
def subLoop : Nat → Nat → Nat → Nat → Option (Nat × Nat)
  | 0, _, _, _ => none
  | fuel + 1, digit, n, b =>
    if n ≥ b then subLoop fuel ((digit + 1) % 256) (n - b) b else some (digit, n)

/-- The `do { ... } while (PGM_READ_MAX_INT_TYPE(&*bt));` loop of the
table-driven `printNumber`.  The first argument after `flashAfter` is the part
of the table from `bt` on; `base` is the `uint8_t` reused as the digit counter.
Returns the bytes written and the final counter. -/
def placeLoop (flashAfter : Nat → Char) :
    List Nat → Nat → Nat → Nat → Option (List Char × Nat)
  | [], _, _, _ => none
  | b :: bt, n, leadingzero, base =>
    match subLoop (n + 1) 0 n b with
    | none => none
    | some (digit, n) =>
      let leadingzero := if leadingzero ≠ 0 then leadingzero else digit
      let out := if b = 1 ∨ leadingzero ≠ 0 then [pgm_read_digit flashAfter digit] else []
      let base := if b = 1 ∨ leadingzero ≠ 0 then (base + 1) % 256 else base
      match bt with
      | [] => none
      | b' :: _ =>
        if b' ≠ 0 then
          match placeLoop flashAfter bt n leadingzero base with
          | none => none
          | some (rest, cnt) => some (out ++ rest, cnt)
        else some (out, base)

/-- The `switch(base)` of the table-driven `printNumber`: the indicator bytes
written by the `default:` branch and the table `bt` points to afterwards. -/
def selectTable (cfg : Config) (base : Nat) : Option (List Char × List Nat) :=
  if base = 16 ∧ cfg.useHex then some ([], base16 cfg.intType)
  else if base = 10 ∧ cfg.useDec then some ([], base10 cfg.intType)
  else if base = 8 ∧ cfg.useOct then some ([], base8 cfg.intType)
  else if base = 2 ∧ cfg.useBin then some ([], base2 cfg.intType)
  else if cfg.useHex then some (['x'], base16 cfg.intType)
  else if cfg.useDec then some (['d'], base10 cfg.intType)
  else if cfg.useOct then some (['o'], base8 cfg.intType)
  else if cfg.useBin then some (['b'], base2 cfg.intType)
  else none

/-- The table-driven `HalfDuplexSerial::printNumber` (built when
`PRINT_USE_BASE_ARBITRARY` is not defined). -/
def printNumber_table (cfg : Config) (n base : Nat) : Option (List Char × Nat) :=
  match selectTable cfg base with
  | none => none
  | some (indicator, bt) =>
    match placeLoop cfg.flashAfter bt n 0 0 with
    | none => none
    | some (out, cnt) => some (indicator ++ out, cnt)

/-! ## Division-based `printNumber` -/

/-- `char c = m - base * n;` read as a signed 8-bit value. -/
def toSChar (v : Nat) : Int :=
  if v % 256 < 128 then (v % 256 : Nat) else (v % 256 : Nat) - 256

/-- The byte `c < 10 ? c + '0' : c + 'A' - 10` stored into the buffer. -/
def digitByte (c : Int) : Nat :=
  if c < 10 then ((c + 48) % 256).toNat else ((c + 65 - 10) % 256).toNat

/-- The `do { ... } while(n);` loop of the division-based `printNumber`.  The
first argument is the number of buffer bytes still free in front of `str`;
the last one the bytes from `str` up to, not including, the final NUL.  A
store in front of `buf[0]` gives `none`. -/
def divLoop : Nat → Nat → Nat → List Nat → Option (List Nat)
  | 0, _, _, _ => none
  | free + 1, n, base, str =>
    let m := n
    let n := n / base
    let c := toSChar (m - base * n)
    let str := digitByte c :: str
    if n ≠ 0 then divLoop free n base str else some str

/-- Modelled from the spec: the overload `write(const char *str)`, declared in
a header that is not among the sources; the string is normalised to repeated
single-byte writes, so the bytes up to the first NUL are handed to
`write(uint8_t)` one by one and their number is returned, as
`write(const uint8_t *buffer, size_t size)` does for `size` bytes. -/
def write_str (str : List Nat) : List Char × Nat :=
  ((str.takeWhile (· ≠ 0)).map Char.ofNat, (str.takeWhile (· ≠ 0)).length)

/-- The division-based `HalfDuplexSerial::printNumber` (built when
`PRINT_USE_BASE_ARBITRARY` is defined); `buf` has `8 * sizeof(n) + 1` bytes. -/
def printNumber_arbitrary (cfg : Config) (n base : Nat) : Option (List Char × Nat) :=
  let base := if base < 2 then 10 else base
  match divLoop cfg.bits n base [] with
  | none => none
  | some str => some (write_str str)

/-- `HalfDuplexSerial::printNumber` of the configured build. -/
def printNumber (cfg : Config) (n base : Nat) : Option (List Char × Nat) :=
  if cfg.arbitrary then printNumber_arbitrary cfg n base else printNumber_table cfg n base

/-! ## Integer `print` overloads -/

/-- Conversion of an integer value to `UNSIGNED_PRINT_INT_TYPE`. -/
def toUnsigned (cfg : Config) (v : Int) : Nat := (v % 2 ^ cfg.bits).toNat

/-- Conversion of an integer value to `PRINT_INT_TYPE` (two's complement). -/
def toSigned (cfg : Config) (v : Int) : Int :=
  if v % 2 ^ cfg.bits < 2 ^ (cfg.bits - 1) then v % 2 ^ cfg.bits
  else v % 2 ^ cfg.bits - 2 ^ cfg.bits

/-- `size_t` is 16 bits wide on the target. -/
def size_t (v : Nat) : Nat := v % 65536

/-- `HalfDuplexSerial::print(PRINT_INT_TYPE n, uint8_t base)`. -/
def print_signed (cfg : Config) (n : Int) (base : Nat) : Option (List Char × Nat) :=
  if base = 10 ∧ n < 0 then
    match printNumber cfg (toUnsigned cfg (-n)) base with
    | none => none
    | some (out, cnt) => some ('-' :: out, size_t (cnt + 1))
  else printNumber cfg (toUnsigned cfg n) base

/-- `HalfDuplexSerial::print(UNSIGNED_PRINT_INT_TYPE n, uint8_t base)`. -/
def print_unsigned (cfg : Config) (n : Nat) (base : Nat) : Option (List Char × Nat) :=
  printNumber cfg n base

/-! ## `read_str` -/

/-- The machine state `read_str` works on: the stores `buf[idx] = v` made so
far (latest first, `idx` relative to `buf`), the retry counter `t`, and the
number of calls of `RxByteNBZeroReturn` made.  The routine never reads the
buffer, so the memory it finds on entry is no part of the state. -/
structure ReadState where
  stores : List (Int × Nat)
  t : Nat
  polls : Nat

/-- The value of `buf[idx]` in state `s`, where `entry` is the memory reached
through `buf` as it was when `read_str` was called. -/
def ReadState.buf (s : ReadState) (entry : Int → Nat) (idx : Int) : Nat :=
  match s.stores.find? (fun e => e.1 = idx) with
  | some e => e.2
  | none => entry idx

/-- The indices stored to so far, latest first. -/
def ReadState.writes (s : ReadState) : List Int := s.stores.map Prod.fst

/-- The store `buf[idx] = v`. -/
def ReadState.store (s : ReadState) (idx : Int) (v : Nat) : ReadState :=
  ⟨(idx, v) :: s.stores, s.t, s.polls⟩

/-- One more call of `RxByteNBZeroReturn` has been made. -/
def ReadState.poll (s : ReadState) : ReadState :=
  ⟨s.stores, s.t, s.polls + 1⟩

/-- The assignment `t = v`. -/
def ReadState.setT (s : ReadState) (v : Nat) : ReadState :=
  ⟨s.stores, v, s.polls⟩

/-- The inner loop `while( (!(buf[i] = RxByteNBZeroReturn())) && --t);`, where
`rx p` is what the call number `p` of `RxByteNBZeroReturn` returns. -/
def pollLoop (rx : Nat → Nat) (i : Nat) : Nat → ReadState → Option ReadState
  | 0, _ => none
  | fuel + 1, s =>
    let c := rx s.polls % 256
    let s := (s.store i c).poll
    if c ≠ 0 then some s
    else
      let t := (s.t + 65535) % 65536
      if t ≠ 0 then pollLoop rx i fuel (s.setT t) else some (s.setT t)

/-- The outer loop `do { ... } while((++i < (length-1)) && t);` with `i` a
`uint8_t`; returns the final `i` and state. -/
def readLoop (rx : Nat → Nat) (length : Nat) : Nat → Nat → ReadState → Option (Nat × ReadState)
  | 0, _, _ => none
  | fuel + 1, i, s =>
    match pollLoop rx i 65536 s with
    | none => none
    | some s =>
      let i := (i + 1) % 256
      if (i : Int) < (length : Int) - 1 ∧ s.t ≠ 0 then readLoop rx length fuel i s
      else some (i, s)

/-- `HalfDuplexSerial::read_str(char buf[], uint8_t length)`. -/
def read_str (rx : Nat → Nat) (length : Nat) : Option ReadState :=
  let s : ReadState := { stores := [], t := 0xFFFF, polls := 0 }
  let s := s.store ((length : Int) - 1) 0
  match readLoop rx length 256 0 s with
  | none => none
  | some (i, s) => some (s.store i 0)

/-! ## `printFloat`

The `double` of the target is a 32-bit binary floating-point number.  A value
of the type is taken as the rational number it stands for, and every
floating-point operation as the exact operation followed by `fl`, the rounding
of the exact result to a value of the type.  With `fl = id` the arithmetic is
exact, with `fl = binary32` it is that of the target. -/

/-- Modelled from the spec: the default value of the `base` argument of the
integer `print` overloads, declared in HalfDuplexSerial.h, which is not among
the sources; the spec prints the integer part and the fraction digits of a
floating-point number in decimal. -/
def DEC : Nat := 10

/-- `HalfDuplexSerial::print(unsigned long n, uint8_t base)`. -/
def print_ulong (cfg : Config) (n : Nat) (base : Nat) : Option (List Char × Nat) :=
  print_unsigned cfg (toUnsigned cfg n) base

/-- `HalfDuplexSerial::print(int n, uint8_t base)`. -/
def print_int (cfg : Config) (n : Int) (base : Nat) : Option (List Char × Nat) :=
  print_signed cfg (toSigned cfg n) base

/-- Truncation toward zero, the integral part a C conversion keeps. -/
def truncQ (q : ℚ) : Int := Int.tdiv q.num q.den

/-- The conversion `(unsigned long)number`; undefined outside the range. -/
def toULong (q : ℚ) : Option Nat :=
  if 0 ≤ truncQ q ∧ truncQ q < 2 ^ 32 then some (truncQ q).toNat else none

/-- The conversion `int(remainder)` to the 16-bit `int`; undefined outside the
range. -/
def toInt16 (q : ℚ) : Option Int :=
  if -2 ^ 15 ≤ truncQ q ∧ truncQ q < 2 ^ 15 then some (truncQ q) else none

/-- The loop `for (uint8_t i=0; i<digits; ++i) rounding /= 10.0;`. -/
def roundingLoop (fl : ℚ → ℚ) : Nat → ℚ → ℚ
  | 0, rounding => rounding
  | digits + 1, rounding => roundingLoop fl digits (fl (rounding / 10))

/-- The loop `while (digits-- > 0) { ... }` of `printFloat`; `n` is the running
byte count. -/
def fracLoop (fl : ℚ → ℚ) (cfg : Config) : Nat → ℚ → Nat → Option (List Char × Nat)
  | 0, _, n => some ([], n)
  | digits + 1, remainder, n =>
    let remainder := fl (remainder * 10)
    match toInt16 remainder with
    | none => none
    | some toPrint =>
      match print_int cfg toPrint DEC with
      | none => none
      | some (out, cnt) =>
        match fracLoop fl cfg digits (fl (remainder - toPrint)) (size_t (n + cnt)) with
        | none => none
        | some (rest, n) => some (out ++ rest, n)

/-- `HalfDuplexSerial::printFloat(double number, uint8_t digits)`, for the
rounding `fl` of the floating-point arithmetic. -/
def printFloat (fl : ℚ → ℚ) (cfg : Config) (number : ℚ) (digits : Nat) :
    Option (List Char × Nat) :=
  let sign : List Char := if number < 0 then ['-'] else []
  let n := if number < 0 then 1 else 0
  let number := if number < 0 then -number else number
  let rounding := roundingLoop fl digits (1 / 2)
  let number := fl (number + rounding)
  match toULong number with
  | none => none
  | some int_part =>
    let remainder := fl (number - fl int_part)
    match print_ulong cfg int_part DEC with
    | none => none
    | some (ipart, cnt) =>
      let n := size_t (n + cnt)
      let point : List Char := if digits > 0 then ['.'] else []
      let n := if digits > 0 then size_t (n + 1) else n
      match fracLoop fl cfg digits remainder n with
      | none => none
      | some (frac, n) => some (sign ++ ipart ++ point ++ frac, n)

/-- The rounding of IEEE 754 binary32, the format of `double` on the 8-bit AVR
target: to the nearest number with a significand of 24 bits, a tie to the one
with an even significand; below `2 ^ (-126)` the spacing is that of the
subnormal numbers.  Overflow to infinity is not modelled. -/
def binary32 (q : ℚ) : ℚ :=
  let e : Int := max (Int.log 2 |q|) (-126)
  let ulp : ℚ := 2 ^ (e - 23)
  let m : ℚ := |q| / ulp
  let f : Int := ⌊m⌋
  let k : Int :=
    if m - f < 1 / 2 then f
    else if 1 / 2 < m - f then f + 1
    else if f % 2 = 0 then f else f + 1
  (if q < 0 then -(k : ℚ) else k) * ulp

/-! ## The digit values of the table-driven `printNumber` -/

/-- The values `digit` takes in the `do { ... } while` loop of the table-driven
`printNumber`, one for each place value read from the table, whether the
digit is written or suppressed as a leading zero. -/
def placeDigits : List Nat → Nat → Option (List Nat)
  | [], _ => none
  | b :: bt, n =>
    match subLoop (n + 1) 0 n b with
    | none => none
    | some (digit, n) =>
      match bt with
      | [] => none
      | b' :: _ =>
        if b' ≠ 0 then
          match placeDigits bt n with
          | none => none
          | some rest => some (digit :: rest)
        else some [digit]

/-! ## wiring.c: `millis` and `micros` -/

/-- The two counters of wiring.c, `wdt_interrupt_counter` and
`timer0_overflow`, both `volatile unsigned long` (32 bits). -/
structure Timebase where
  wdt_interrupt_counter : Nat
  timer0_overflow : Nat
  deriving DecidableEq, Repr

/-- The counters after reset: both are initialised to 0. -/
def Timebase.reset : Timebase := ⟨0, 0⟩

/-- `ISR(WDT_vect)`: `wdt_interrupt_counter++`. -/
def WDT_vect (s : Timebase) : Timebase :=
  ⟨(s.wdt_interrupt_counter + 1) % 2 ^ 32, s.timer0_overflow⟩

/-- `ISR(TIM0_OVF_vect)`: `timer0_overflow++`. -/
def TIM0_OVF_vect (s : Timebase) : Timebase :=
  ⟨s.wdt_interrupt_counter, (s.timer0_overflow + 1) % 2 ^ 32⟩

/-- `millis()`: `wdt_interrupt_counter * 16` in `unsigned long`.  The counter
is `volatile` and four bytes wide, the 8-bit target loads it one byte at a
time, and `millis()` does not disable interrupts (there is no `cli()` as in
`micros()`), so `WDT_vect` can run between two of the loads.  `s` holds the
counters when the call begins, and `during i` is the number of watchdog
interrupts handled since then at the moment byte `i` of the counter is
loaded (byte 0 is the low byte). -/
def millis (s : Timebase) (during : Nat → Nat) : Nat :=
  let byte (i : Nat) : Nat := (WDT_vect^[during i] s).wdt_interrupt_counter / 256 ^ i % 256
  ((byte 0 + 256 * byte 1 + 65536 * byte 2 + 16777216 * byte 3) * 16) % 2 ^ 32

/-- The call of `millis()` during which no watchdog interrupt is handled. -/
def quiet : Nat → Nat := fun _ => 0

/-- `micros()` for the clock frequency `F_CPU`; `none` where the `#error`
branch stops the build. -/
def micros (F_CPU : Nat) (s : Timebase) : Option Nat :=
  if F_CPU = 16000 then some ((s.timer0_overflow * 16000) % 2 ^ 32)
  else if F_CPU < 150000 ∧ F_CPU > 80000 then some ((s.timer0_overflow * 2000) % 2 ^ 32)
  else if F_CPU = 600000 then some ((s.timer0_overflow * 427) % 2 ^ 32)
  else if F_CPU = 1000000 then some ((s.timer0_overflow * 256) % 2 ^ 32)
  else if F_CPU = 1200000 then some ((s.timer0_overflow * 213) % 2 ^ 32)
  else if F_CPU = 4000000 then some ((s.timer0_overflow * 64) % 2 ^ 32)
  else if F_CPU = 4800000 then some ((s.timer0_overflow * 53) % 2 ^ 32)
  else if F_CPU = 8000000 then some ((s.timer0_overflow * 32) % 2 ^ 32)
  else if F_CPU = 9600000 then some ((s.timer0_overflow * 27) % 2 ^ 32)
  else if F_CPU = 10000000 then some ((s.timer0_overflow * 26) % 2 ^ 32)
  else if F_CPU = 12000000 then some ((s.timer0_overflow * 21) % 2 ^ 32)
  else if F_CPU = 16000000 then some ((s.timer0_overflow * 16) % 2 ^ 32)
  else none

/-- What can run on the counters: the two interrupt handlers, and calls of the
functions of wiring.c, none of which stores to a counter. -/
inductive Event where
  | wdt
  | tim0_ovf
  | millis
  | micros
  | delay
  | delayMicroseconds
  | init
  deriving DecidableEq, Repr

/-- The effect of an event on the counters. -/
def step (s : Timebase) : Event → Timebase
  | .wdt => WDT_vect s
  | .tim0_ovf => TIM0_OVF_vect s
  | _ => s

/-- The counters after a sequence of events. -/
def run (s : Timebase) (events : List Event) : Timebase := events.foldl step s

/-! ## wiring.c: `uS_new` and `delayMicroseconds` -/

/-- The `#if` chain at the head of `uS_new`: the adjusted `us` (a `uint16_t`)
and the value assigned to `us_loops`, `none` where no branch of the chain
assigns it. -/
def uS_new_setup (F_CPU us : Nat) : Nat × Option Nat :=
  if F_CPU = 16000000 then (us, some 16)
  else if F_CPU = 9600000 ∨ F_CPU = 10000000 then ((us + us / 8) % 65536, some 8)
  else if F_CPU = 8000000 then (us, some 8)
  else if F_CPU = 4800000 then ((us + us / 8) % 65536, some 4)
  else if F_CPU = 4000000 then (us, some 4)
  else (us, none)

/-- `uS_new(us)`: the operands `us_low`, `us_high` and `us_loops` the busy loop
is started with; `none` when the loop reads a `us_loops` that was never
assigned. -/
def uS_new (F_CPU us : Nat) : Option (Nat × Nat × Nat) :=
  match (uS_new_setup F_CPU us).2 with
  | none => none
  | some us_loops =>
    let us := (uS_new_setup F_CPU us).1 / 4
    some (us % 256, us / 256, us_loops)

/-- What a call of `delayMicroseconds` comes to. -/
inductive Delay where
  | returned
  | delegated (us : Nat)
  | looped (counter : Nat)
  deriving DecidableEq, Repr

/-- `delayMicroseconds(us)` up to its final loop: it returns at once, hands
`us` to `uS_new`, or enters the `sbiw`/`brne` loop with a 16-bit counter. -/
def delayMicroseconds (F_CPU us : Nat) : Delay :=
  if us = 0 then .returned
  else if F_CPU = 16000000 ∨ F_CPU = 12000000 then
    if us > 99 then .delegated us
    else .looped (((us + 65535) % 65536 * 4) % 65536)
  else if F_CPU = 8000000 ∨ F_CPU = 9600000 ∨ F_CPU = 10000000 then
    if us > 199 then .delegated us
    else .looped (((us + 65533) % 65536 * 2) % 65536)
  else if F_CPU = 4000000 ∨ F_CPU = 4800000 then
    if us > 299 then .delegated us
    else .looped ((us + 65530) % 65536)
  else if F_CPU = 1000000 ∨ F_CPU = 1200000 then
    .looped ((us + 65520) % 65536 / 4)
  else if F_CPU = 600000 then
    .looped ((us + 65504) % 65536 / 8)
  else if F_CPU < 150000 ∧ F_CPU > 80000 then
    .looped ((us + 65411) % 65536 / 32)
  else .returned

/-- The loop `1: sbiw %0,1` / `brne 1b` on a 16-bit counter: the number of
passes made when it ends, on top of `passes`. -/
def sbiwLoop : Nat → Nat → Nat → Option Nat
  | 0, _, _ => none
  | fuel + 1, us, passes =>
    if (us + 65535) % 65536 ≠ 0 then sbiwLoop fuel ((us + 65535) % 65536) (passes + 1)
    else some (passes + 1)

/-- The number of passes of the final loop of `delayMicroseconds(us)`; `none`
when the call does not reach that loop. -/
def delayPasses (F_CPU us : Nat) : Option Nat :=
  match delayMicroseconds F_CPU us with
  | .looped counter => sbiwLoop 65536 counter 0
  | _ => none

/-- The smallest argument for which the bias subtraction of `delayMicroseconds`
neither wraps nor leaves a counter of 0, for the frequency class of `F_CPU`. -/
def delayFloor (F_CPU : Nat) : Nat :=
  if F_CPU = 16000000 ∨ F_CPU = 12000000 then 2
  else if F_CPU = 8000000 ∨ F_CPU = 9600000 ∨ F_CPU = 10000000 then 4
  else if F_CPU = 4000000 ∨ F_CPU = 4800000 then 7
  else if F_CPU = 1000000 ∨ F_CPU = 1200000 then 20
  else if F_CPU = 600000 then 40
  else 157

/-! ## wiring.c: `init` -/

/-- The waveform generation mode selected at build time, if any. -/
inductive PwmMode where
  | PWM_FAST
  | PWM_NORMAL
  | PWM_PHASE_CORRECT
  | PWM_CTC
  | unset
  deriving DecidableEq, Repr

/-- The macro `_BV(bit)` of avr-libc, `1 << bit`. -/
def _BV (bit : Nat) : Nat := 1 <<< bit

/-- The operator `~` on the 16-bit `int` of the target, as a bit pattern. -/
def bitNot (x : Nat) : Nat := 65535 - x % 65536

/-- What `init()`, built with `SETUP_PWM`, leaves in the 8-bit register
`TCCR0A`; `WGM00` and `WGM01` are the bit numbers the device header gives. -/
def init_TCCR0A (WGM00 WGM01 : Nat) (mode : PwmMode) (TCCR0A : Nat) : Nat :=
  match mode with
  | .PWM_FAST => (TCCR0A ||| (_BV WGM00 ||| _BV WGM01)) % 256
  | .PWM_NORMAL => (TCCR0A &&& (bitNot (_BV WGM00) ||| bitNot (_BV WGM01))) % 256
  | .PWM_PHASE_CORRECT => (TCCR0A ||| _BV WGM00) % 256
  | .PWM_CTC => (TCCR0A ||| _BV WGM01) % 256
  | .unset => TCCR0A

/-! ## Notions the statements are phrased in -/

/-- The value of a character of the alphabet `0-9A-F`. -/
def digitValue (c : Char) : Option Nat :=
  if (digits.take 16).indexOf c < 16 then some ((digits.take 16).indexOf c) else none

/-- Reading of a string of digits as a numeral in base `b`, most significant
digit first, on top of the value `acc` read so far; a character outside the
alphabet, or one whose value is not below `b`, is rejected. -/
def parseFrom (b : Nat) : Nat → List Char → Option Nat
  | acc, [] => some acc
  | acc, c :: cs =>
    match digitValue c with
    | none => none
    | some d => if d < b then parseFrom b (acc * b + d) cs else none

/-- The number a non-empty string denotes as a base-`b` numeral over the
alphabet `0-9A-F`. -/
def parseNumeral (b : Nat) (s : List Char) : Option Nat :=
  if s = [] then none else parseFrom b 0 s

/-- The table of the `j` lowest powers of `b`, from `b ^ (j - 1)` down to `1`,
closed by the sentinel `0`. -/
def places (b : Nat) : Nat → List Nat
  | 0 => [0]
  | j + 1 => b ^ j :: places b j

/-- The base-`b` digits of a number `m` below `b ^ k` on exactly `k` places,
most significant first. -/
def padded (b : Nat) : Nat → Nat → List Nat
  | 0, _ => []
  | k + 1, m => m / b ^ k :: padded b k (m % b ^ k)

/-- The base-`b` digits of `n` on at most `k + 1` places, most significant
first, without leading zeros (a single `0` for zero). -/
def stripped (b : Nat) : Nat → Nat → List Nat
  | 0, n => [n]
  | k + 1, n => if n / b ^ (k + 1) = 0 then stripped b k n else padded b (k + 2) n

/-- The base `base` is one of the bases compiled into the table-driven
`printNumber`. -/
def Config.compiledIn (cfg : Config) (base : Nat) : Bool :=
  (base = 16 && cfg.useHex) || (base = 10 && cfg.useDec) || (base = 8 && cfg.useOct) ||
    (base = 2 && cfg.useBin)

/-- At least one of the four tables is compiled in. -/
def Config.hasTable (cfg : Config) : Bool :=
  cfg.useHex || cfg.useDec || cfg.useOct || cfg.useBin

/-- The build is one in which `printNumber` can be called: the division-based
routine, or the table-driven one with a table to fall back on. -/
def Config.usable (cfg : Config) : Bool := cfg.arbitrary || cfg.hasTable

/-- The number of indicator bytes `printNumber` writes in front of the digits:
one in the table-driven build for a base that is not compiled in. -/
def Config.indicatorBytes (cfg : Config) (base : Nat) : Nat :=
  if !cfg.arbitrary && !cfg.compiledIn base then 1 else 0

/-- A table the place loop can run on: at least one place value, none of them
zero, at most 32 of them, and the sentinel `0` at the end. -/
def tableOK (bt : List Nat) : Bool :=
  bt.getLast? = some 0 && !bt.dropLast.isEmpty && bt.dropLast.all (0 < ·) &&
    decide (bt.dropLast.length ≤ 32)

/-- A table-driven build with decimal as the only base compiled in. -/
def decimalOnly (ty : PrintIntType) : Config :=
  { intType := ty, useBin := false, useOct := false, useDec := true, useHex := false,
    arbitrary := false, flashAfter := fun _ => Char.ofNat 0 }

/-- A table-driven build with binary as the only base compiled in. -/
def binaryOnly (ty : PrintIntType) : Config :=
  { intType := ty, useBin := true, useOct := false, useDec := false, useHex := false,
    arbitrary := false, flashAfter := fun _ => Char.ofNat 0 }

/-- A table-driven build with hexadecimal as the only base compiled in. -/
def hexOnly (ty : PrintIntType) : Config :=
  { intType := ty, useBin := false, useOct := false, useDec := false, useHex := true,
    arbitrary := false, flashAfter := fun _ => Char.ofNat 0 }

/-- A table-driven build with all four bases compiled in. -/
def allTables (ty : PrintIntType) : Config :=
  { intType := ty, useBin := true, useOct := true, useDec := true, useHex := true,
    arbitrary := false, flashAfter := fun _ => Char.ofNat 0 }

/-- The build with the division-based `printNumber`. -/
def arbitraryBase (ty : PrintIntType) : Config :=
  { intType := ty, useBin := false, useOct := false, useDec := false, useHex := false,
    arbitrary := true, flashAfter := fun _ => Char.ofNat 0 }

/-- The table the `switch` selects for one of the four bases. -/
def tableOf (ty : PrintIntType) (base : Nat) : List Nat :=
  if base = 16 then base16 ty else if base = 10 then base10 ty
  else if base = 8 then base8 ty else base2 ty

/-- The base the `default:` branch of the `switch` falls back to: the first
compiled-in one of 16, 10, 8, 2. -/
def Config.defaultBase (cfg : Config) : Nat :=
  if cfg.useHex then 16 else if cfg.useDec then 10 else if cfg.useOct then 8 else 2

/-- The indicator character that goes with the default base. -/
def Config.indicatorChar (cfg : Config) : Char :=
  if cfg.useHex then 'x' else if cfg.useDec then 'd' else if cfg.useOct then 'o' else 'b'

/-- The exponent of the highest power of the base needed for the values of a
width: the values of the width are below `base ^ (topPlace ty base + 1)`. -/
def topPlace (ty : PrintIntType) (base : Nat) : Nat :=
  if base = 16 then ty.bits / 4 - 1
  else if base = 10 then (match ty with | .byte => 2 | .int => 4 | .long => 9)
  else if base = 8 then (match ty with | .byte => 2 | .int => 5 | .long => 10)
  else ty.bits - 1

/-- A build that prints 32-bit integers and can print in decimal. -/
def Config.longDecimal (cfg : Config) : Bool :=
  decide (cfg.intType = .long) && (cfg.arbitrary || cfg.useDec)

/-- The calls of `RxByteNBZeroReturn` from call number `p` on behave as the list
`events` says: for each `(g, c)` in turn the next `g` calls fail (return 0) and
the call after them returns the non-zero byte `c`; once the list is used up
every call fails. -/
def Delivers (rx : Nat → Nat) : Nat → List (Nat × Nat) → Prop
  | p, [] => ∀ q, p ≤ q → rx q % 256 = 0
  | p, (g, c) :: es =>
    (∀ q, p ≤ q → q < p + g → rx q % 256 = 0) ∧ rx (p + g) % 256 = c ∧ c ≠ 0 ∧
      Delivers rx (p + g + 1) es

/-- The value of `sizeof(n)` for `n` of the configured print integer type. -/
def Config.sizeof (cfg : Config) : Nat :=
  match cfg.intType with
  | .byte => 1
  | .int => 2
  | .long => 4

/-! ## The subtraction loop -/

theorem subLoop_eq (b : Nat) (hb : 0 < b) :
    ∀ (fuel digit n : Nat), digit < 256 → n / b < fuel →
      subLoop fuel digit n b = some ((digit + n / b) % 256, n % b) := by
  intro fuel
  induction fuel with
  | zero => intro digit n _ h; exact absurd h (Nat.not_lt_zero _)
  | succ fuel ih =>
    intro digit n hd h
    unfold subLoop
    by_cases hn : n ≥ b
    · have hdiv : n / b = (n - b) / b + 1 := Nat.div_eq_sub_div hb hn
      have hmod : n % b = (n - b) % b := Nat.mod_eq_sub_mod hn
      have hfuel : (n - b) / b < fuel := by
        rw [hdiv] at h
        exact Nat.lt_of_succ_lt_succ h
      rw [if_pos hn, ih _ _ (Nat.mod_lt _ (by norm_num)) hfuel, hdiv, hmod]
      congr 2
      generalize (n - b) / b = q
      omega
    · have hlt : n < b := by omega
      rw [if_neg hn, Nat.div_eq_of_lt hlt, Nat.mod_eq_of_lt hlt]
      simp [Nat.mod_eq_of_lt hd]

/-- The subtraction loop started by `printNumber` on a non-zero place value
`b` ends with the quotient (as a `uint8_t`) and the remainder. -/
theorem subLoop_start (b n : Nat) (hb : 0 < b) :
    subLoop (n + 1) 0 n b = some (n / b % 256, n % b) := by
  have h := subLoop_eq b hb (n + 1) 0 n (by norm_num)
    (Nat.lt_succ_of_le (Nat.div_le_self n b))
  simpa using h

/-- One pass of the place loop over a non-zero place value `b` that is not the
last one of the table. -/
theorem placeLoop_cons (f : Nat → Char) (b b2 : Nat) (bt : List Nat) (n lz c : Nat)
    (hb : 0 < b) (hb2 : b2 ≠ 0) :
    placeLoop f (b :: b2 :: bt) n lz c =
      match placeLoop f (b2 :: bt) (n % b) (if lz ≠ 0 then lz else n / b % 256)
          (if b = 1 ∨ (if lz ≠ 0 then lz else n / b % 256) ≠ 0 then (c + 1) % 256 else c) with
      | none => none
      | some (rest, cnt) =>
        some ((if b = 1 ∨ (if lz ≠ 0 then lz else n / b % 256) ≠ 0
                then [pgm_read_digit f (n / b % 256)] else []) ++ rest, cnt) := by
  rw [placeLoop, subLoop_start b n hb]
  simp only [hb2, ne_eq, not_false_eq_true, if_true]

/-- The pass of the place loop over the last place value `b` in front of the
sentinel. -/
theorem placeLoop_last (f : Nat → Char) (b : Nat) (bt : List Nat) (n lz c : Nat)
    (hb : 0 < b) :
    placeLoop f (b :: 0 :: bt) n lz c =
      some ((if b = 1 ∨ (if lz ≠ 0 then lz else n / b % 256) ≠ 0
              then [pgm_read_digit f (n / b % 256)] else []),
            (if b = 1 ∨ (if lz ≠ 0 then lz else n / b % 256) ≠ 0 then (c + 1) % 256 else c)) := by
  rw [placeLoop, subLoop_start b n hb]
  simp

/-! ## Termination and byte count of the place loop -/

/-- On a table of non-zero place values closed by the sentinel the place loop
returns; the counter it returns has advanced by the number of bytes written,
and no more bytes are written than the table has place values. -/
theorem placeLoop_total (f : Nat → Char) :
    ∀ (l : List Nat), l ≠ [] → (∀ b ∈ l, 0 < b) → ∀ (n lz c : Nat), c + l.length < 256 →
      ∃ out, placeLoop f (l ++ [0]) n lz c = some (out, c + out.length) ∧
        out.length ≤ l.length := by
  intro l
  induction l with
  | nil => intro h; exact absurd rfl h
  | cons b l ih =>
    intro _ hpos n lz c hc
    have hb : 0 < b := hpos b (List.mem_cons_self _ _)
    cases l with
    | nil =>
      simp only [List.length_cons, List.length_nil] at hc
      have h := placeLoop_last f b [] n lz c hb
      by_cases hw : b = 1 ∨ (if lz ≠ 0 then lz else n / b % 256) ≠ 0
      · rw [if_pos hw, if_pos hw, Nat.mod_eq_of_lt (show c + 1 < 256 by omega)] at h
        exact ⟨_, h, by simp⟩
      · rw [if_neg hw, if_neg hw] at h
        exact ⟨_, h, by simp⟩
    | cons b2 l2 =>
      have hb2 : b2 ≠ 0 :=
        Nat.pos_iff_ne_zero.mp (hpos b2 (List.mem_cons_of_mem _ (List.mem_cons_self _ _)))
      have hpos2 : ∀ x ∈ b2 :: l2, 0 < x := fun x hx => hpos x (List.mem_cons_of_mem _ hx)
      simp only [List.length_cons] at hc
      rw [List.cons_append, List.cons_append, placeLoop_cons f b b2 _ n lz c hb hb2]
      by_cases hw : b = 1 ∨ (if lz ≠ 0 then lz else n / b % 256) ≠ 0
      · obtain ⟨out, hout, hlen⟩ := ih (List.cons_ne_nil _ _) hpos2 (n % b)
          (if lz ≠ 0 then lz else n / b % 256) ((c + 1) % 256)
          (by simp only [List.length_cons]; omega)
        rw [List.cons_append] at hout
        rw [if_pos hw, if_pos hw, hout]
        refine ⟨[pgm_read_digit f (n / b % 256)] ++ out, ?_, ?_⟩
        · simp only [Option.some.injEq, Prod.mk.injEq, true_and, List.length_append,
            List.length_cons, List.length_nil]
          rw [Nat.mod_eq_of_lt (show c + 1 < 256 by omega)]
          omega
        · simp only [List.length_append, List.length_cons, List.length_nil] at hlen ⊢
          omega
      · obtain ⟨out, hout, hlen⟩ := ih (List.cons_ne_nil _ _) hpos2 (n % b)
          (if lz ≠ 0 then lz else n / b % 256) c
          (by simp only [List.length_cons]; omega)
        rw [List.cons_append] at hout
        rw [if_neg hw, if_neg hw, hout]
        refine ⟨out, ?_, ?_⟩
        · simp
        · simp only [List.length_cons] at hlen ⊢
          omega

theorem tableOK_spec (bt : List Nat) (h : tableOK bt = true) :
    ∃ l, bt = l ++ [0] ∧ l ≠ [] ∧ (∀ b ∈ l, 0 < b) ∧ l.length ≤ 32 := by
  simp only [tableOK, Bool.and_eq_true, Bool.not_eq_true', List.all_eq_true,
    decide_eq_true_eq] at h
  obtain ⟨⟨⟨h1, h2⟩, h3⟩, h4⟩ := h
  refine ⟨bt.dropLast, ?_, ?_, ?_, h4⟩
  · have hne : bt ≠ [] := by
      intro h0
      simp [h0] at h1
    have := List.dropLast_append_getLast? 0 (by simpa using h1 : (0 : Nat) ∈ bt.getLast?)
    exact this.symm
  · intro h0
    simp [h0] at h2
  · intro b hb
    exact h3 b hb

theorem selectTable_ok (cfg : Config) (base : Nat) (ind : List Char) (bt : List Nat)
    (h : selectTable cfg base = some (ind, bt)) : tableOK bt = true := by
  unfold selectTable at h
  cases hty : cfg.intType <;> simp only [hty] at h <;>
    (repeat' split at h) <;>
    first
      | (cases h; done)
      | (simp only [Option.some.injEq, Prod.mk.injEq] at h; rw [← h.2]; decide)

theorem selectTable_indicator (cfg : Config) (base : Nat) (ind : List Char) (bt : List Nat)
    (h : selectTable cfg base = some (ind, bt)) :
    ind.length = if cfg.compiledIn base then 0 else 1 := by
  unfold selectTable at h
  unfold Config.compiledIn
  cases hH : cfg.useHex <;> cases hD : cfg.useDec <;> cases hO : cfg.useOct <;>
    cases hB : cfg.useBin <;>
    simp only [hH, hD, hO, hB, Bool.and_true, Bool.and_false, Bool.or_false, Bool.false_or,
      and_true, and_false, if_false, if_true, Bool.false_eq_true, decide_eq_true_eq,
      Bool.or_eq_true] at h ⊢ <;>
    (repeat' split at h) <;>
    first
      | (cases h; done)
      | (simp only [Option.some.injEq, Prod.mk.injEq] at h
         obtain ⟨rfl, _⟩ := h
         first
           | (rw [if_pos (by omega)]; rfl)
           | (rw [if_neg (by omega)]; rfl))

theorem selectTable_isSome (cfg : Config) (base : Nat) (h : cfg.hasTable = true) :
    ∃ ind bt, selectTable cfg base = some (ind, bt) := by
  unfold Config.hasTable at h
  unfold selectTable
  (repeat' split) <;> first | exact ⟨_, _, rfl⟩ | simp_all

/-- The table-driven `printNumber` returns whenever a table is compiled in; its
return value is the number of digit bytes, and the indicator byte, if one is
written, comes on top of it. -/
theorem printNumber_table_total (cfg : Config) (n base : Nat) (h : cfg.hasTable = true) :
    ∃ out cnt, printNumber_table cfg n base = some (out, cnt) ∧
      out.length = cnt + (if cfg.compiledIn base then 0 else 1) ∧ cnt ≤ 32 := by
  obtain ⟨ind, bt, hsel⟩ := selectTable_isSome cfg base h
  obtain ⟨l, rfl, hne, hpos, hlen⟩ := tableOK_spec bt (selectTable_ok cfg base ind _ hsel)
  obtain ⟨out, hout, hol⟩ := placeLoop_total cfg.flashAfter l hne hpos n 0 0 (by omega)
  refine ⟨ind ++ out, out.length, ?_, ?_, by omega⟩
  · unfold printNumber_table
    rw [hsel]
    simp only [hout, Nat.zero_add]
  · rw [List.length_append, selectTable_indicator cfg base ind _ hsel]
    omega

/-- The division loop stays inside the buffer: with `free` bytes in front of
`str` it stores the digits of any `n` below `2 ^ free`. -/
theorem divLoop_total (base : Nat) (hb : 2 ≤ base) :
    ∀ (free n : Nat) (str : List Nat), 0 < free → n < 2 ^ free →
      ∃ res, divLoop free n base str = some res ∧ res.length ≤ free + str.length := by
  intro free
  induction free with
  | zero => intro n str h; omega
  | succ free ih =>
    intro n str _ hn
    unfold divLoop
    by_cases h0 : n / base = 0
    · refine ⟨digitByte (toSChar (n - base * (n / base))) :: str, ?_, ?_⟩
      · simp only [h0, ne_eq, not_true_eq_false, if_false]
      · simp only [List.length_cons]
        omega
    · simp only [ne_eq, h0, not_false_eq_true, if_true]
      have hle : n / base ≤ n / 2 := Nat.div_le_div_left hb (by norm_num)
      have hlt : n / 2 < 2 ^ free := by
        rw [Nat.div_lt_iff_lt_mul (by norm_num)]
        rw [pow_succ] at hn
        exact hn
      have hfree : 0 < free := by
        rcases Nat.eq_zero_or_pos free with h | h
        · subst h
          have h1 : n / base < 1 := by simpa using lt_of_le_of_lt hle hlt
          exact absurd (Nat.lt_one_iff.mp h1) h0
        · exact h
      obtain ⟨res, hres, hlen⟩ := ih (n / base)
        (digitByte (toSChar (n - base * (n / base))) :: str) hfree (lt_of_le_of_lt hle hlt)
      refine ⟨res, hres, ?_⟩
      simp only [List.length_cons] at hlen
      omega

theorem write_str_length (str : List Nat) : (write_str str).1.length = (write_str str).2 := by
  simp [write_str]

theorem PrintIntType.bits_pos (ty : PrintIntType) : 0 < ty.bits := by
  cases ty <;> decide

theorem PrintIntType.bits_le (ty : PrintIntType) : ty.bits ≤ 32 := by
  cases ty <;> decide

/-- The division-based `printNumber` returns for every value of the print
integer type, and its return value is the number of bytes written. -/
theorem printNumber_arbitrary_total (cfg : Config) (n base : Nat) (hn : n < 2 ^ cfg.bits) :
    ∃ out cnt, printNumber_arbitrary cfg n base = some (out, cnt) ∧ out.length = cnt ∧
      cnt ≤ 32 := by
  have hb : 2 ≤ (if base < 2 then 10 else base) := by split <;> omega
  obtain ⟨res, hres, hlen⟩ := divLoop_total _ hb cfg.bits n [] cfg.intType.bits_pos hn
  refine ⟨(write_str res).1, (write_str res).2, ?_, write_str_length res, ?_⟩
  · unfold printNumber_arbitrary
    simp only [hres]
  · have h1 : (write_str res).2 ≤ res.length := by
      simp only [write_str]
      exact (List.takeWhile_sublist _).length_le
    have h2 := cfg.intType.bits_le
    simp only [List.length_nil, Config.bits] at hlen h2 ⊢
    omega

/-- In every usable build `printNumber` returns for every value of the print
integer type; it writes its return value many bytes, plus the indicator byte
where there is one. -/
theorem printNumber_total (cfg : Config) (n base : Nat) (hu : cfg.usable = true)
    (hn : n < 2 ^ cfg.bits) :
    ∃ out cnt, printNumber cfg n base = some (out, cnt) ∧
      out.length = cnt + cfg.indicatorBytes base ∧ cnt ≤ 32 := by
  unfold printNumber Config.indicatorBytes
  cases ha : cfg.arbitrary
  · have ht : cfg.hasTable = true := by simpa [Config.usable, ha] using hu
    obtain ⟨out, cnt, h1, h2, h3⟩ := printNumber_table_total cfg n base ht
    refine ⟨out, cnt, by simpa using h1, ?_, h3⟩
    rw [h2]
    cases cfg.compiledIn base <;> simp
  · obtain ⟨out, cnt, h1, h2, h3⟩ := printNumber_arbitrary_total cfg n base hn
    exact ⟨out, cnt, by simpa using h1, by simpa using h2, h3⟩

theorem toUnsigned_lt (cfg : Config) (v : Int) : toUnsigned cfg v < 2 ^ cfg.bits := by
  unfold toUnsigned
  have hpos : (0 : Int) < 2 ^ cfg.bits := by positivity
  have h1 := Int.emod_lt_of_pos v hpos
  have h2 := Int.emod_nonneg v (ne_of_gt hpos)
  zify
  rw [Int.toNat_of_nonneg h2]
  exact_mod_cast h1

theorem toUnsigned_of_nonneg (cfg : Config) (v : Int) (h0 : 0 ≤ v) (h1 : v < 2 ^ cfg.bits) :
    toUnsigned cfg v = v.toNat := by
  unfold toUnsigned
  rw [Int.emod_eq_of_lt h0 h1]

theorem two_pow_pred_lt (cfg : Config) : (2 : Int) ^ (cfg.bits - 1) < 2 ^ cfg.bits := by
  have h := cfg.intType.bits_pos
  exact pow_lt_pow_right₀ (by norm_num) (by simp only [Config.bits]; omega)

/-! ## The digits written for a table of powers -/

theorem places_succ_succ (b j : Nat) :
    places b (j + 2) = b ^ (j + 1) :: b ^ j :: places b j := rfl

theorem div_pow_lt (b j n : Nat) (hb : 2 ≤ b) (hb16 : b ≤ 16) (hn : n < b ^ (j + 1)) :
    n / b ^ j < b ∧ n / b ^ j % 256 = n / b ^ j := by
  have h1 : n / b ^ j < b := by
    rw [Nat.div_lt_iff_lt_mul (by positivity)]
    rw [pow_succ, mul_comm] at hn
    exact hn
  exact ⟨h1, Nat.mod_eq_of_lt (by omega)⟩

/-- Once a digit has been written (`leadingzero` set), the place loop writes
one digit for each place of the table. -/
theorem placeLoop_padded (f : Nat → Char) (b : Nat) (hb : 2 ≤ b) (hb16 : b ≤ 16) :
    ∀ (j n lz c : Nat), lz ≠ 0 → n < b ^ (j + 1) → c + j + 1 < 256 →
      placeLoop f (places b (j + 1)) n lz c =
        some ((padded b (j + 1) n).map (pgm_read_digit f), c + j + 1) := by
  intro j
  induction j with
  | zero =>
    intro n lz c hlz hn hc
    have h := placeLoop_last f 1 [] n lz c (by norm_num)
    simp only [places, pow_zero, padded, List.map_cons, List.map_nil]
    rw [h]
    simp only [true_or, if_true, Nat.div_one]
    rw [Nat.mod_eq_of_lt (show n < 256 by simp at hn; omega),
      Nat.mod_eq_of_lt (show c + 1 < 256 by omega)]
  | succ j ih =>
    intro n lz c hlz hn hc
    have hpow : 0 < b ^ (j + 1) := by positivity
    have hpow2 : b ^ j ≠ 0 := by positivity
    obtain ⟨hd, hd256⟩ := div_pow_lt b (j + 1) n hb hb16 hn
    rw [places_succ_succ, placeLoop_cons f _ _ _ n lz c hpow hpow2]
    have hw : b ^ (j + 1) = 1 ∨ (if lz ≠ 0 then lz else n / b ^ (j + 1) % 256) ≠ 0 := by
      right
      rw [if_pos hlz]
      exact hlz
    rw [if_pos hw, if_pos hw, if_pos hlz]
    have hrec := ih (n % b ^ (j + 1)) lz ((c + 1) % 256) hlz (Nat.mod_lt _ hpow)
      (by rw [Nat.mod_eq_of_lt (show c + 1 < 256 by omega)]; omega)
    rw [show b ^ j :: places b j = places b (j + 1) from rfl, hrec, hd256]
    rw [Nat.mod_eq_of_lt (show c + 1 < 256 by omega)]
    simp only [padded, List.map_cons, List.singleton_append, Option.some.injEq, Prod.mk.injEq,
      true_and]
    omega

/-- Started with `leadingzero` clear, the place loop skips the leading zero
digits and writes the remaining ones, the last one in any case. -/
theorem placeLoop_stripped (f : Nat → Char) (b : Nat) (hb : 2 ≤ b) (hb16 : b ≤ 16) :
    ∀ (k n c : Nat), n < b ^ (k + 1) → c + k + 1 < 256 →
      placeLoop f (places b (k + 1)) n 0 c =
        some ((stripped b k n).map (pgm_read_digit f), c + (stripped b k n).length) := by
  intro k
  induction k with
  | zero =>
    intro n c hn hc
    have h := placeLoop_last f 1 [] n 0 c (by norm_num)
    simp only [places, pow_zero, stripped, List.map_cons, List.map_nil, List.length_cons,
      List.length_nil]
    rw [h]
    simp only [true_or, if_true, Nat.div_one]
    rw [Nat.mod_eq_of_lt (show n < 256 by simp at hn; omega),
      Nat.mod_eq_of_lt (show c + 1 < 256 by omega)]
  | succ k ih =>
    intro n c hn hc
    have hpow : 0 < b ^ (k + 1) := by positivity
    have hpow2 : b ^ k ≠ 0 := by positivity
    have hne1 : b ^ (k + 1) ≠ 1 := by
      have : 1 < b ^ (k + 1) := Nat.one_lt_pow (by omega) (by omega)
      omega
    obtain ⟨hd, hd256⟩ := div_pow_lt b (k + 1) n hb hb16 hn
    rw [places_succ_succ, placeLoop_cons f _ _ _ n 0 c hpow hpow2]
    simp only [ne_eq, not_true_eq_false, if_false, hd256, hne1, false_or]
    rw [show b ^ k :: places b k = places b (k + 1) from rfl]
    by_cases h0 : n / b ^ (k + 1) = 0
    · have hlt : n < b ^ (k + 1) := by
        rcases Nat.lt_or_ge n (b ^ (k + 1)) with h | h
        · exact h
        · exact absurd h0 (Nat.pos_iff_ne_zero.mp (Nat.div_pos h hpow))
      simp only [h0, not_true_eq_false, if_false, Nat.mod_eq_of_lt hlt, stripped, if_true]
      rw [ih n c hlt (by omega)]
      simp
    · simp only [h0, not_false_eq_true, if_true, stripped, if_false]
      rw [placeLoop_padded f b hb hb16 k (n % b ^ (k + 1)) _ _ h0 (Nat.mod_lt _ hpow)
        (by rw [Nat.mod_eq_of_lt (show c + 1 < 256 by omega)]; omega)]
      rw [Nat.mod_eq_of_lt (show c + 1 < 256 by omega)]
      have hlen : ∀ (j m : Nat), (padded b j m).length = j := by
        intro j
        induction j with
        | zero => intro m; rfl
        | succ j ihj => intro m; simp [padded, ihj]
      simp only [padded, List.map_cons, List.singleton_append, List.length_cons, hlen,
        Option.some.injEq, Prod.mk.injEq, true_and]
      omega

/-! ## Reading the digits back -/

theorem digitValue_pgm_read_digit (f : Nat → Char) (d : Nat) (hd : d < 16) :
    digitValue (pgm_read_digit f d) = some d := by
  interval_cases d <;> rfl

theorem parseFrom_padded (f : Nat → Char) (b : Nat) (hb : 2 ≤ b) (hb16 : b ≤ 16) :
    ∀ (k m acc : Nat), m < b ^ k →
      parseFrom b acc ((padded b k m).map (pgm_read_digit f)) = some (acc * b ^ k + m) := by
  intro k
  induction k with
  | zero =>
    intro m acc hm
    simp only [pow_zero, Nat.lt_one_iff] at hm
    simp [padded, parseFrom, hm]
  | succ k ih =>
    intro m acc hm
    obtain ⟨hd, _⟩ := div_pow_lt b k m hb hb16 hm
    have hpow : 0 < b ^ k := by positivity
    simp only [padded, List.map_cons, parseFrom,
      digitValue_pgm_read_digit f _ (lt_of_lt_of_le hd hb16), hd, if_true]
    rw [ih (m % b ^ k) _ (Nat.mod_lt _ hpow)]
    congr 1
    have hdm := Nat.div_add_mod m (b ^ k)
    rw [pow_succ]
    nlinarith [hdm]

theorem stripped_ne_nil (b : Nat) : ∀ (k n : Nat), stripped b k n ≠ [] := by
  intro k
  induction k with
  | zero => intro n; simp [stripped]
  | succ k ih =>
    intro n
    unfold stripped
    split
    · exact ih n
    · simp [padded]

theorem parseFrom_stripped (f : Nat → Char) (b : Nat) (hb : 2 ≤ b) (hb16 : b ≤ 16) :
    ∀ (k n : Nat), n < b ^ (k + 1) →
      parseFrom b 0 ((stripped b k n).map (pgm_read_digit f)) = some n := by
  intro k
  induction k with
  | zero =>
    intro n hn
    have hn2 : n < b := by simpa using hn
    simp [stripped, parseFrom, digitValue_pgm_read_digit f n (lt_of_lt_of_le hn2 hb16), hn2]
  | succ k ih =>
    intro n hn
    have hpow : 0 < b ^ (k + 1) := by positivity
    unfold stripped
    split
    · rename_i h0
      have hlt : n < b ^ (k + 1) := by
        rcases Nat.lt_or_ge n (b ^ (k + 1)) with h | h
        · exact h
        · exact absurd h0 (Nat.pos_iff_ne_zero.mp (Nat.div_pos h hpow))
      exact ih n hlt
    · rw [parseFrom_padded f b hb hb16 (k + 2) n 0 hn]
      simp

/-! ## The tables of the source as tables of powers -/

/-- Every table of the source except the 32-bit `base2` lists the powers of its
base, from the highest one needed for the width down to `1`. -/
theorem tableOf_places (ty : PrintIntType) (base : Nat)
    (hbase : base = 16 ∨ base = 10 ∨ base = 8 ∨ base = 2)
    (hbug : ¬(ty = .long ∧ base = 2)) :
    tableOf ty base = places base (topPlace ty base + 1) ∧
      2 ^ ty.bits ≤ base ^ (topPlace ty base + 1) ∧ topPlace ty base + 1 ≤ ty.bits := by
  rcases hbase with h | h | h | h <;> subst h <;> cases ty <;>
    first
      | decide
      | exact absurd (And.intro rfl rfl) hbug

theorem selectTable_compiledIn (cfg : Config) (base : Nat) (h : cfg.compiledIn base = true) :
    selectTable cfg base = some ([], tableOf cfg.intType base) ∧
      (base = 16 ∨ base = 10 ∨ base = 8 ∨ base = 2) := by
  unfold Config.compiledIn at h
  simp only [Bool.or_eq_true, Bool.and_eq_true, decide_eq_true_eq] at h
  unfold selectTable tableOf
  rcases h with ((⟨h1, h2⟩ | ⟨h1, h2⟩) | ⟨h1, h2⟩) | ⟨h1, h2⟩ <;> subst h1 <;> simp [h2]

theorem selectTable_default (cfg : Config) (base : Nat) (ht : cfg.hasTable = true)
    (h : cfg.compiledIn base = false) :
    selectTable cfg base = some ([cfg.indicatorChar], tableOf cfg.intType cfg.defaultBase) ∧
      (cfg.defaultBase = 16 ∨ cfg.defaultBase = 10 ∨ cfg.defaultBase = 8 ∨
        cfg.defaultBase = 2) := by
  unfold Config.compiledIn at h
  unfold Config.hasTable at ht
  unfold selectTable tableOf Config.indicatorChar Config.defaultBase
  cases hH : cfg.useHex <;> cases hD : cfg.useDec <;> cases hO : cfg.useOct <;>
    cases hB : cfg.useBin <;> simp_all

/-- What the table-driven `printNumber` does on a table of powers of `b`. -/
theorem printNumber_table_places (cfg : Config) (n base b k : Nat) (ind : List Char)
    (hsel : selectTable cfg base = some (ind, places b (k + 1)))
    (hb : 2 ≤ b) (hb16 : b ≤ 16) (hk : k + 1 ≤ 32) (hn : n < b ^ (k + 1)) :
    printNumber_table cfg n base =
      some (ind ++ (stripped b k n).map (pgm_read_digit cfg.flashAfter),
        (stripped b k n).length) := by
  unfold printNumber_table
  rw [hsel]
  simp only [placeLoop_stripped cfg.flashAfter b hb hb16 k n 0 hn (by omega), Nat.zero_add]

/-- Round trip: for a compiled-in base, any table but the 32-bit `base2`, the
bytes the table-driven `printNumber` writes denote `n` in that base, and the
return value is their number. -/
theorem printNumber_table_roundtrip (cfg : Config) (n base : Nat)
    (hc : cfg.compiledIn base = true) (hbug : ¬(cfg.intType = .long ∧ base = 2))
    (hn : n < 2 ^ cfg.bits) :
    ∃ out, printNumber_table cfg n base = some (out, out.length) ∧
      parseNumeral base out = some n := by
  obtain ⟨hsel, hbase⟩ := selectTable_compiledIn cfg base hc
  obtain ⟨htab, hpow, hk⟩ := tableOf_places cfg.intType base hbase hbug
  have hb : 2 ≤ base ∧ base ≤ 16 := by omega
  have hn2 : n < base ^ (topPlace cfg.intType base + 1) := lt_of_lt_of_le hn hpow
  have hk32 : topPlace cfg.intType base + 1 ≤ 32 := le_trans hk cfg.intType.bits_le
  rw [htab] at hsel
  refine ⟨(stripped base (topPlace cfg.intType base) n).map (pgm_read_digit cfg.flashAfter),
    ?_, ?_⟩
  · rw [printNumber_table_places cfg n base base _ [] hsel hb.1 hb.2 hk32 hn2]
    simp
  · unfold parseNumeral
    simp only [List.map_eq_nil_iff, stripped_ne_nil, if_false]
    exact parseFrom_stripped cfg.flashAfter base hb.1 hb.2 _ n hn2

/-! ## The division loop writes the same digits -/

theorem stripped_of_lt (b : Nat) :
    ∀ (k n : Nat), n < b → stripped b k n = [n] := by
  intro k
  induction k with
  | zero => intro n _; rfl
  | succ k ih =>
    intro n hn
    have hle : b ≤ b ^ (k + 1) := Nat.le_self_pow (by omega) b
    simp only [stripped, Nat.div_eq_of_lt (lt_of_lt_of_le hn hle), if_true]
    exact ih n hn

theorem padded_snoc (b : Nat) (hb : 2 ≤ b) :
    ∀ (k n : Nat), n < b ^ (k + 1) → padded b (k + 1) n = padded b k (n / b) ++ [n % b] := by
  intro k
  induction k with
  | zero =>
    intro n hn
    have hn2 : n < b := by simpa using hn
    simp [padded, Nat.mod_eq_of_lt hn2]
  | succ k ih =>
    intro n _
    have hpow : 0 < b ^ (k + 1) := by positivity
    rw [padded, ih (n % b ^ (k + 1)) (Nat.mod_lt _ hpow)]
    conv_rhs => rw [padded]
    have h1 : n / b / b ^ k = n / b ^ (k + 1) := by
      rw [Nat.div_div_eq_div_mul, pow_succ, mul_comm]
    have h2 : n % b ^ (k + 1) / b = n / b % b ^ k := by
      rw [pow_succ, mul_comm, Nat.mod_mul_right_div_self]
    have h3 : n % b ^ (k + 1) % b = n % b := by
      rw [pow_succ, mul_comm, Nat.mod_mul_right_mod]
    rw [h1, h2, h3, List.cons_append]

theorem stripped_snoc (b : Nat) (hb : 2 ≤ b) :
    ∀ (k n : Nat), b ≤ n → n < b ^ (k + 2) →
      stripped b (k + 1) n = stripped b k (n / b) ++ [n % b] := by
  intro k
  induction k with
  | zero =>
    intro n hn hlt
    have h0 : n / b ≠ 0 := Nat.pos_iff_ne_zero.mp (Nat.div_pos hn (by omega))
    have hs : stripped b (0 + 1) n = padded b (1 + 1) n := by simp [stripped, h0]
    rw [hs, padded_snoc b hb 1 n hlt]
    simp [stripped, padded]
  | succ k ih =>
    intro n hn hlt
    have h1 : n / b / b ^ (k + 1) = n / b ^ (k + 2) := by
      rw [Nat.div_div_eq_div_mul, pow_succ b (k + 1), mul_comm]
    rw [stripped]
    conv_rhs => rw [stripped]
    rw [h1]
    split
    · rename_i h0
      have hpow : 0 < b ^ (k + 2) := by positivity
      have hlt2 : n < b ^ (k + 2) := by
        rcases Nat.lt_or_ge n (b ^ (k + 2)) with h | h
        · exact h
        · exact absurd h0 (Nat.pos_iff_ne_zero.mp (Nat.div_pos h hpow))
      exact ih n hn hlt2
    · exact padded_snoc b hb (k + 2) n hlt

/-- The division loop stores the same digits the table of powers yields, the
most significant one first. -/
theorem divLoop_stripped (b : Nat) (hb : 2 ≤ b) :
    ∀ (k free n : Nat) (str : List Nat), n < b ^ (k + 1) → k + 1 ≤ free →
      divLoop free n b str =
        some ((stripped b k n).map (fun d => digitByte (toSChar d)) ++ str) := by
  intro k
  induction k with
  | zero =>
    intro free n str hn hfree
    have hn2 : n < b := by simpa using hn
    obtain ⟨free, rfl⟩ : ∃ f, free = f + 1 := ⟨free - 1, by omega⟩
    simp [divLoop, Nat.div_eq_of_lt hn2, stripped]
  | succ k ih =>
    intro free n str hn hfree
    obtain ⟨free, rfl⟩ : ∃ f, free = f + 1 := ⟨free - 1, by omega⟩
    have hmod : n - b * (n / b) = n % b := by
      have := Nat.div_add_mod n b
      omega
    unfold divLoop
    simp only [hmod]
    by_cases h0 : n / b = 0
    · have hlt : n < b := by
        rcases Nat.lt_or_ge n b with h | h
        · exact h
        · exact absurd h0 (Nat.pos_iff_ne_zero.mp (Nat.div_pos h (by omega)))
      simp [h0, stripped_of_lt b _ n hlt, Nat.mod_eq_of_lt hlt]
    · have hge : b ≤ n := by
        rcases Nat.lt_or_ge n b with h | h
        · exact absurd (Nat.div_eq_of_lt h) h0
        · exact h
      have hq : n / b < b ^ (k + 1) := by
        rw [Nat.div_lt_iff_lt_mul (by omega)]
        rw [pow_succ] at hn
        exact hn
      simp only [ne_eq, h0, not_false_eq_true, if_true]
      rw [ih free (n / b) _ hq (by omega), stripped_snoc b hb k n hge hn]
      simp

theorem padded_lt (b : Nat) (hb : 2 ≤ b) :
    ∀ (k m : Nat), m < b ^ k → ∀ d ∈ padded b k m, d < b := by
  intro k
  induction k with
  | zero => intro m _ d hd; simp [padded] at hd
  | succ k ih =>
    intro m hm d hd
    have hpow : 0 < b ^ k := by positivity
    simp only [padded, List.mem_cons] at hd
    rcases hd with h | h
    · rw [h, Nat.div_lt_iff_lt_mul hpow]
      rw [pow_succ, mul_comm] at hm
      exact hm
    · exact ih _ (Nat.mod_lt _ hpow) d h

theorem stripped_lt (b : Nat) (hb : 2 ≤ b) :
    ∀ (k n : Nat), n < b ^ (k + 1) → ∀ d ∈ stripped b k n, d < b := by
  intro k
  induction k with
  | zero =>
    intro n hn d hd
    simp only [stripped, List.mem_singleton] at hd
    simpa [hd] using hn
  | succ k ih =>
    intro n hn d hd
    have hpow : 0 < b ^ (k + 1) := by positivity
    unfold stripped at hd
    split at hd
    · rename_i h0
      have hlt : n < b ^ (k + 1) := by
        rcases Nat.lt_or_ge n (b ^ (k + 1)) with h | h
        · exact h
        · exact absurd h0 (Nat.pos_iff_ne_zero.mp (Nat.div_pos h hpow))
      exact ih n hlt d hd
    · exact padded_lt b hb (k + 2) n hn d hd

theorem digitByte_eq_pgm_read_digit (f : Nat → Char) (d : Nat) (hd : d < 16) :
    digitByte (toSChar d) ≠ 0 ∧ Char.ofNat (digitByte (toSChar d)) = pgm_read_digit f d := by
  interval_cases d <;> exact ⟨by decide, rfl⟩

theorem write_str_digits (f : Nat → Char) (ds : List Nat) (h : ∀ d ∈ ds, d < 16) :
    write_str (ds.map (fun d => digitByte (toSChar d))) =
      (ds.map (pgm_read_digit f), ds.length) := by
  have htw : (ds.map (fun d => digitByte (toSChar d))).takeWhile (· ≠ 0) =
      ds.map (fun d => digitByte (toSChar d)) := by
    rw [List.takeWhile_eq_self_iff]
    intro x hx
    obtain ⟨d, hd, rfl⟩ := List.mem_map.mp hx
    simpa using (digitByte_eq_pgm_read_digit f d (h d hd)).1
  unfold write_str
  rw [htw]
  simp only [List.map_map, List.length_map, Prod.mk.injEq, and_true]
  apply List.map_congr_left
  intro d hd
  exact (digitByte_eq_pgm_read_digit f d (h d hd)).2

/-- What the division-based `printNumber` does for a base from 2 to 16. -/
theorem printNumber_arbitrary_stripped (cfg : Config) (n b k : Nat) (hb : 2 ≤ b)
    (hb16 : b ≤ 16) (hk : k + 1 ≤ cfg.bits) (hn : n < b ^ (k + 1)) :
    printNumber_arbitrary cfg n b =
      some ((stripped b k n).map (pgm_read_digit cfg.flashAfter), (stripped b k n).length) := by
  unfold printNumber_arbitrary
  rw [if_neg (by omega)]
  simp only [divLoop_stripped b hb k cfg.bits n [] hn hk, List.append_nil]
  rw [write_str_digits cfg.flashAfter _
    (fun d hd => lt_of_lt_of_le (stripped_lt b hb k n hn d hd) hb16)]

/-- Outside the 32-bit `base2` table the two builds agree: for the bases 2, 8,
10 and 16 the division-based `printNumber` and the table-driven one with the
base compiled in write the same bytes and return the same count. -/
theorem printNumber_builds_agree (cfgA cfgT : Config) (n base : Nat)
    (hty : cfgA.intType = cfgT.intType) (hflash : cfgA.flashAfter = cfgT.flashAfter)
    (hc : cfgT.compiledIn base = true) (hbug : ¬(cfgT.intType = .long ∧ base = 2))
    (hn : n < 2 ^ cfgT.bits) :
    ∃ out, printNumber_table cfgT n base = some (out, out.length) ∧
      printNumber_arbitrary cfgA n base = some (out, out.length) := by
  obtain ⟨hsel, hbase⟩ := selectTable_compiledIn cfgT base hc
  obtain ⟨htab, hpow, hk⟩ := tableOf_places cfgT.intType base hbase hbug
  have hb : 2 ≤ base ∧ base ≤ 16 := by omega
  have hn2 : n < base ^ (topPlace cfgT.intType base + 1) := lt_of_lt_of_le hn hpow
  have hk32 : topPlace cfgT.intType base + 1 ≤ 32 := le_trans hk cfgT.intType.bits_le
  rw [htab] at hsel
  refine ⟨(stripped base (topPlace cfgT.intType base) n).map (pgm_read_digit cfgT.flashAfter),
    ?_, ?_⟩
  · rw [printNumber_table_places cfgT n base base _ [] hsel hb.1 hb.2 hk32 hn2]
    simp
  · rw [printNumber_arbitrary_stripped cfgA n base (topPlace cfgT.intType base) hb.1 hb.2
      (by simpa [Config.bits, hty] using hk) hn2, hflash]
    simp

/-- Fallback: for a base that is not compiled in, the table-driven
`printNumber` writes the indicator of the default base and then, any default
table but the 32-bit `base2`, the digits of `n` in the default base; the
return value counts the digits only. -/
theorem printNumber_table_fallback (cfg : Config) (n base : Nat) (ht : cfg.hasTable = true)
    (hc : cfg.compiledIn base = false)
    (hbug : ¬(cfg.intType = .long ∧ cfg.defaultBase = 2)) (hn : n < 2 ^ cfg.bits) :
    ∃ ds, printNumber_table cfg n base = some (cfg.indicatorChar :: ds, ds.length) ∧
      parseNumeral cfg.defaultBase ds = some n := by
  obtain ⟨hsel, hbase⟩ := selectTable_default cfg base ht hc
  obtain ⟨htab, hpow, hk⟩ := tableOf_places cfg.intType cfg.defaultBase hbase hbug
  have hb : 2 ≤ cfg.defaultBase ∧ cfg.defaultBase ≤ 16 := by omega
  have hn2 : n < cfg.defaultBase ^ (topPlace cfg.intType cfg.defaultBase + 1) :=
    lt_of_lt_of_le hn hpow
  have hk32 : topPlace cfg.intType cfg.defaultBase + 1 ≤ 32 :=
    le_trans hk cfg.intType.bits_le
  rw [htab] at hsel
  refine ⟨(stripped cfg.defaultBase (topPlace cfg.intType cfg.defaultBase) n).map
    (pgm_read_digit cfg.flashAfter), ?_, ?_⟩
  · rw [printNumber_table_places cfg n base cfg.defaultBase _ _ hsel hb.1 hb.2 hk32 hn2]
    simp
  · unfold parseNumeral
    simp only [List.map_eq_nil_iff, stripped_ne_nil, if_false]
    exact parseFrom_stripped cfg.flashAfter cfg.defaultBase hb.1 hb.2 _ n hn2

/-- With decimal the only base compiled in, every base value other than 10
makes the table-driven `printNumber` write `d` followed by the decimal digits
of `n`. -/
theorem printNumber_table_decimal_fallback (ty : PrintIntType) (n base : Nat)
    (hbase : base ≠ 10) (hn : n < 2 ^ ty.bits) :
    ∃ ds, printNumber_table (decimalOnly ty) n base = some ('d' :: ds, ds.length) ∧
      parseNumeral 10 ds = some n := by
  have hc : (decimalOnly ty).compiledIn base = false := by
    simp [Config.compiledIn, decimalOnly, hbase]
  exact printNumber_table_fallback (decimalOnly ty) n base rfl hc
    (by simp [Config.defaultBase, decimalOnly]) hn

/-! ## The 32-bit `base2` table -/

/-- C1 fails on the code for the 32-bit type and base 2: the table `base2`
lacks the place values `2 ^ 27` to `2 ^ 24`, so for `n = 0x11000000` the
table-driven `printNumber` writes `12` and 23 zeros, which is no base-2
numeral, let alone one denoting `n`. -/
theorem printNumber_table_long_base2 :
    printNumber_table (allTables .long) 0x11000000 2 =
        some ('1' :: '2' :: List.replicate 23 '0', 25) ∧
      parseNumeral 2 ('1' :: '2' :: List.replicate 23 '0') ≠ some 0x11000000 := by
  decide

/-- C4 fails on the code where the default base is 2 and the type is 32 bits
wide: with binary the only base compiled in, `printNumber(0x11000000, 10)`
writes `b`, then `12` and 23 zeros, which are not the base-2 digits of `n`. -/
theorem printNumber_table_long_binary_fallback :
    printNumber_table (binaryOnly .long) 0x11000000 10 =
        some ('b' :: '1' :: '2' :: List.replicate 23 '0', 25) ∧
      parseNumeral 2 ('1' :: '2' :: List.replicate 23 '0') = none := by
  decide

/-- C6 fails on the code for the 32-bit type and base 2: for `n = 0x11000000`
the division-based `printNumber` writes the 29 binary digits of `n` and returns
29, the table-driven one writes 25 bytes and returns 25. -/
theorem printNumber_builds_differ_long_base2 :
    printNumber_arbitrary (arbitraryBase .long) 0x11000000 2 =
        some ('1' :: '0' :: '0' :: '0' :: '1' :: List.replicate 24 '0', 29) ∧
      printNumber_table (allTables .long) 0x11000000 2 =
        some ('1' :: '2' :: List.replicate 23 '0', 25) := by
  decide

/-! ## The integer `print` overloads -/

/-- C2. For every negative `n` of the signed print type, the most negative
value included, `print(n, 10)` writes `-` followed by exactly the bytes
`printNumber` writes for the magnitude `|n|` taken as an unsigned value, and
returns one more than `printNumber` returns for it. -/
theorem print_signed_negative_decimal (cfg : Config) (n : Int) (hu : cfg.usable = true)
    (hneg : n < 0) (hmin : -(2 : Int) ^ (cfg.bits - 1) ≤ n) :
    ∃ out cnt, printNumber cfg n.natAbs 10 = some (out, cnt) ∧
      print_signed cfg n 10 = some ('-' :: out, cnt + 1) := by
  have hlt := two_pow_pred_lt cfg
  have habs : toUnsigned cfg (-n) = n.natAbs := by
    rw [toUnsigned_of_nonneg cfg (-n) (by omega) (by omega)]
    omega
  have hbound : n.natAbs < 2 ^ cfg.bits := by
    rw [← habs]
    exact toUnsigned_lt cfg (-n)
  obtain ⟨out, cnt, h1, _, h3⟩ := printNumber_total cfg n.natAbs 10 hu hbound
  refine ⟨out, cnt, h1, ?_⟩
  unfold print_signed
  rw [if_pos ⟨rfl, hneg⟩, habs, h1]
  simp only [size_t, Option.some.injEq, Prod.mk.injEq, true_and]
  omega

theorem print_signed_negative_decimal_witness :
    ∃ out cnt, printNumber (allTables .byte) (-128 : Int).natAbs 10 = some (out, cnt) ∧
      print_signed (allTables .byte) (-128) 10 = some ('-' :: out, cnt + 1) :=
  print_signed_negative_decimal (allTables .byte) (-128) (by decide) (by decide) (by decide)

/-- C3. For every base other than 10 and every negative `n` of the signed print
type, `print(n, base)` writes the same bytes and returns the same count as the
unsigned `print(u, base)`, where `u = n + 2 ^ w` is the two's-complement bit
pattern of `n` read as an unsigned value of the same width `w`. -/
theorem print_signed_negative_other_base (cfg : Config) (n : Int) (base : Nat)
    (hu : cfg.usable = true) (hbase : base ≠ 10) (hneg : n < 0)
    (hmin : -(2 : Int) ^ (cfg.bits - 1) ≤ n) :
    ∃ out cnt, print_unsigned cfg (n + 2 ^ cfg.bits).toNat base = some (out, cnt) ∧
      print_signed cfg n base = some (out, cnt) := by
  have hlt := two_pow_pred_lt cfg
  have hpat : toUnsigned cfg n = (n + 2 ^ cfg.bits).toNat := by
    unfold toUnsigned
    rw [← Int.add_emod_self, Int.emod_eq_of_lt (by omega) (by omega)]
  have hbound : (n + 2 ^ cfg.bits).toNat < 2 ^ cfg.bits := by
    rw [← hpat]
    exact toUnsigned_lt cfg n
  obtain ⟨out, cnt, h1, _, _⟩ := printNumber_total cfg _ base hu hbound
  refine ⟨out, cnt, h1, ?_⟩
  unfold print_signed
  rw [if_neg (fun h => hbase h.1), hpat]
  exact h1

theorem print_signed_negative_other_base_witness :
    ∃ out cnt, print_unsigned (allTables .byte) ((-1 : Int) + 2 ^ (allTables .byte).bits).toNat 16
        = some (out, cnt) ∧
      print_signed (allTables .byte) (-1) 16 = some (out, cnt) :=
  print_signed_negative_other_base (allTables .byte) (-1) 16 (by decide) (by decide)
    (by decide) (by decide)

/-- C5, as stated, fails: with decimal as the only compiled-in base,
`print(5, 16)` hands the two bytes `d5` to `write` and returns 1. -/
theorem print_count_excludes_indicator :
    print_unsigned (decimalOnly .byte) 5 16 = some (['d', '5'], 1) ∧
      print_signed (decimalOnly .byte) 5 16 = some (['d', '5'], 1) ∧
      (1 : Nat) ≠ ['d', '5'].length := by
  decide

/-- C5, amended. For every `n` and every base value the integer `print(n, base)`
calls, signed and unsigned, return the number of bytes handed to `write` less
the indicator byte: the returned value is the number of bytes written when the
base is compiled in and in the division-based build, and is one less when the
table-driven `printNumber` falls back to its default base. -/
theorem print_count (cfg : Config) (base : Nat) (hu : cfg.usable = true) :
    (∀ n : Nat, n < 2 ^ cfg.bits →
      ∃ out cnt, print_unsigned cfg n base = some (out, cnt) ∧
        out.length = cnt + cfg.indicatorBytes base) ∧
    (∀ n : Int,
      ∃ out cnt, print_signed cfg n base = some (out, cnt) ∧
        out.length = cnt + cfg.indicatorBytes base) := by
  constructor
  · intro n hn
    obtain ⟨out, cnt, h1, h2, _⟩ := printNumber_total cfg n base hu hn
    exact ⟨out, cnt, h1, h2⟩
  · intro n
    unfold print_signed
    split
    · obtain ⟨out, cnt, h1, h2, h3⟩ :=
        printNumber_total cfg _ base hu (toUnsigned_lt cfg (-n))
      refine ⟨'-' :: out, cnt + 1, ?_, ?_⟩
      · rw [h1]
        simp only [size_t, Option.some.injEq, Prod.mk.injEq, true_and]
        omega
      · simp only [List.length_cons, h2]
        omega
    · obtain ⟨out, cnt, h1, h2, _⟩ :=
        printNumber_total cfg _ base hu (toUnsigned_lt cfg n)
      exact ⟨out, cnt, h1, h2⟩

theorem print_count_witness :
    (∃ out cnt, print_unsigned (decimalOnly .int) 5 16 = some (out, cnt) ∧
        out.length = cnt + (decimalOnly .int).indicatorBytes 16) ∧
    (∃ out cnt, print_signed (decimalOnly .int) (-7) 16 = some (out, cnt) ∧
        out.length = cnt + (decimalOnly .int).indicatorBytes 16) :=
  ⟨(print_count (decimalOnly .int) 16 (by decide)).1 5 (by decide),
    (print_count (decimalOnly .int) 16 (by decide)).2 (-7)⟩

/-! ## `printFloat` -/

theorem truncQ_eq (q : ℚ) (z : Nat) (h0 : (z : ℚ) ≤ q) (h1 : q < z + 1) : truncQ q = z := by
  have hq : 0 ≤ q := le_trans (by positivity) h0
  unfold truncQ
  rw [Int.tdiv_eq_ediv (Rat.num_nonneg.mpr hq) (by positivity), ← Rat.floor_def,
    Int.floor_eq_iff]
  exact ⟨by exact_mod_cast h0, by exact_mod_cast h1⟩

theorem toULong_eq (q : ℚ) (z : Nat) (h0 : (z : ℚ) ≤ q) (h1 : q < z + 1) (hz : z < 2 ^ 32) :
    toULong q = some z := by
  unfold toULong
  rw [truncQ_eq q z h0 h1]
  have h2 : (0 : Int) ≤ z ∧ (z : Int) < 2 ^ 32 := ⟨by positivity, by exact_mod_cast hz⟩
  rw [if_pos h2, Int.toNat_natCast]

theorem toInt16_eq (q : ℚ) (z : Nat) (h0 : (z : ℚ) ≤ q) (h1 : q < z + 1) (hz : z < 2 ^ 15) :
    toInt16 q = some (z : Int) := by
  unfold toInt16
  rw [truncQ_eq q z h0 h1]
  have h2 : -(2 : Int) ^ 15 ≤ z ∧ (z : Int) < 2 ^ 15 :=
    ⟨le_trans (by norm_num) (Int.natCast_nonneg z), by exact_mod_cast hz⟩
  rw [if_pos h2]

/-- In decimal a value below ten is printed as its single digit. -/
theorem printNumber_digit (cfg : Config) (d : Nat) (h : cfg.longDecimal = true) (hd : d < 10) :
    printNumber cfg d 10 = some ([pgm_read_digit cfg.flashAfter d], 1) := by
  simp only [Config.longDecimal, Bool.and_eq_true, decide_eq_true_eq, Bool.or_eq_true] at h
  obtain ⟨hty, hdec⟩ := h
  unfold printNumber
  cases ha : cfg.arbitrary
  · have hu : cfg.useDec = true := by simpa [ha] using hdec
    have hc : cfg.compiledIn 10 = true := by simp [Config.compiledIn, hu]
    obtain ⟨hsel, _⟩ := selectTable_compiledIn cfg 10 hc
    have htab : tableOf cfg.intType 10 = places 10 (9 + 1) := by rw [hty]; decide
    rw [htab] at hsel
    simp only [Bool.false_eq_true, if_false]
    rw [printNumber_table_places cfg d 10 10 9 [] hsel (by norm_num) (by norm_num)
      (by norm_num) (lt_trans hd (by norm_num))]
    simp [stripped_of_lt 10 9 d hd]
  · simp only [if_true]
    rw [printNumber_arbitrary_stripped cfg d 10 0 (by norm_num) (by norm_num)
      (by simp [Config.bits, hty, PrintIntType.bits]) (by simpa using hd)]
    simp [stripped]

theorem print_ulong_digit (cfg : Config) (d : Nat) (h : cfg.longDecimal = true) (hd : d < 10) :
    print_ulong cfg d DEC = some ([pgm_read_digit cfg.flashAfter d], 1) := by
  have hpow : (2 : Int) ^ 4 ≤ 2 ^ cfg.bits :=
    pow_le_pow_right₀ (by norm_num) (by
      have := cfg.intType.bits_pos
      simp only [Config.longDecimal, Bool.and_eq_true, decide_eq_true_eq] at h
      simp [Config.bits, h.1, PrintIntType.bits])
  unfold print_ulong print_unsigned DEC
  rw [toUnsigned_of_nonneg cfg d (by positivity) (by omega), Int.toNat_natCast]
  exact printNumber_digit cfg d h hd

theorem print_int_digit (cfg : Config) (d : Nat) (h : cfg.longDecimal = true) (hd : d < 10) :
    print_int cfg (d : Int) DEC = some ([pgm_read_digit cfg.flashAfter d], 1) := by
  have hbits : cfg.bits = 32 := by
    simp only [Config.longDecimal, Bool.and_eq_true, decide_eq_true_eq] at h
    simp [Config.bits, h.1, PrintIntType.bits]
  have hs : toSigned cfg (d : Int) = d := by
    unfold toSigned
    rw [hbits, Int.emod_eq_of_lt (by positivity) (by omega)]
    rw [if_pos (by omega)]
  unfold print_int print_signed DEC
  rw [hs, if_neg (by omega), toUnsigned_of_nonneg cfg d (by positivity) (by rw [hbits]; omega),
    Int.toNat_natCast]
  exact printNumber_digit cfg d h hd

/-- C7, amended. With exact rational arithmetic, in a build with the 32-bit
print type that can print decimal (the division-based `printNumber`, or the
decimal table compiled in), `printFloat(1.999, 2)` writes `2.00`,
`printFloat(0.0, 0)` writes `0` without a decimal point, and
`printFloat(-1.5, 0)` writes `-2`. -/
theorem printFloat_examples (cfg : Config) (h : cfg.longDecimal = true) :
    printFloat id cfg (1999 / 1000) 2 = some (['2', '.', '0', '0'], 4) ∧
      printFloat id cfg 0 0 = some (['0'], 1) ∧
      printFloat id cfg (-3 / 2) 0 = some (['-', '2'], 2) := by
  have hi0 := print_int_digit cfg 0 h (by norm_num)
  have hu0 := print_ulong_digit cfg 0 h (by norm_num)
  have hu2 := print_ulong_digit cfg 2 h (by norm_num)
  have hp0 : pgm_read_digit cfg.flashAfter 0 = '0' := rfl
  have hp2 : pgm_read_digit cfg.flashAfter 2 = '2' := rfl
  rw [hp0] at hi0 hu0
  rw [hp2] at hu2
  refine ⟨?_, ?_, ?_⟩
  · have hneg : ¬((1999 : ℚ) / 1000 < 0) := by norm_num
    have hround : roundingLoop id 2 (1 / 2) = 1 / 200 := by
      simp only [roundingLoop, id_eq]; norm_num
    have hint : toULong (1999 / 1000 + 1 / 200) = some 2 :=
      toULong_eq _ 2 (by norm_num) (by norm_num) (by norm_num)
    have hd1 : toInt16 ((1999 / 1000 + 1 / 200 - ((2 : Nat) : ℚ)) * 10) = some ((0 : Nat) : Int) :=
      toInt16_eq _ 0 (by norm_num) (by norm_num) (by norm_num)
    have hd2 : toInt16 (((1999 / 1000 + 1 / 200 - ((2 : Nat) : ℚ)) * 10 - ((0 : Nat) : Int)) * 10)
        = some ((0 : Nat) : Int) :=
      toInt16_eq _ 0 (by norm_num) (by norm_num) (by norm_num)
    simp only [printFloat, hneg, if_false, hround, id_eq, hint, hu2, fracLoop, hd1, hd2, hi0]
    simp [size_t]
  · have hint : toULong (0 + 1 / 2) = some 0 :=
      toULong_eq _ 0 (by norm_num) (by norm_num) (by norm_num)
    simp only [printFloat, lt_self_iff_false, if_false, roundingLoop, id_eq, hint, hu0,
      fracLoop]
    simp [size_t]
  · have hneg : ((-3 : ℚ) / 2 < 0) := by norm_num
    have hint : toULong (-(-3 / 2) + 1 / 2) = some 2 :=
      toULong_eq _ 2 (by norm_num) (by norm_num) (by norm_num)
    simp only [printFloat, hneg, if_true, roundingLoop, id_eq, hint, hu2, fracLoop]
    simp [size_t]

theorem printFloat_examples_witness :
    printFloat id (allTables .long) (1999 / 1000) 2 = some (['2', '.', '0', '0'], 4) ∧
      printFloat id (allTables .long) 0 0 = some (['0'], 1) ∧
      printFloat id (allTables .long) (-3 / 2) 0 = some (['-', '2'], 2) :=
  printFloat_examples (allTables .long) (by decide)

/-- C7, counterexample. In a 32-bit table-driven build with hexadecimal as the
only base compiled in, decimal falls back to the hexadecimal table and every
integer print starts with the indicator `x`: with exact arithmetic
`printFloat(1.999, 2)` writes `x2.x0x0`, `printFloat(0.0, 0)` writes `x0` and
`printFloat(-1.5, 0)` writes `-x2`. -/
theorem printFloat_hexOnly_examples :
    printFloat id (hexOnly .long) (1999 / 1000) 2 =
        some (['x', '2', '.', 'x', '0', 'x', '0'], 4) ∧
      printFloat id (hexOnly .long) 0 0 = some (['x', '0'], 1) ∧
      printFloat id (hexOnly .long) (-3 / 2) 0 = some (['-', 'x', '2'], 2) := by
  have hi0 : print_int (hexOnly .long) ((0 : Nat) : Int) DEC = some (['x', '0'], 1) := by decide
  have hu0 : print_ulong (hexOnly .long) 0 DEC = some (['x', '0'], 1) := by decide
  have hu2 : print_ulong (hexOnly .long) 2 DEC = some (['x', '2'], 1) := by decide
  refine ⟨?_, ?_, ?_⟩
  · have hneg : ¬((1999 : ℚ) / 1000 < 0) := by norm_num
    have hround : roundingLoop id 2 (1 / 2) = 1 / 200 := by
      simp only [roundingLoop, id_eq]; norm_num
    have hint : toULong (1999 / 1000 + 1 / 200) = some 2 :=
      toULong_eq _ 2 (by norm_num) (by norm_num) (by norm_num)
    have hd1 : toInt16 ((1999 / 1000 + 1 / 200 - ((2 : Nat) : ℚ)) * 10) = some ((0 : Nat) : Int) :=
      toInt16_eq _ 0 (by norm_num) (by norm_num) (by norm_num)
    have hd2 : toInt16 (((1999 / 1000 + 1 / 200 - ((2 : Nat) : ℚ)) * 10 - ((0 : Nat) : Int)) * 10)
        = some ((0 : Nat) : Int) :=
      toInt16_eq _ 0 (by norm_num) (by norm_num) (by norm_num)
    simp only [printFloat, hneg, if_false, hround, id_eq, hint, hu2, fracLoop, hd1, hd2, hi0]
    simp [size_t]
  · have hint : toULong (0 + 1 / 2) = some 0 :=
      toULong_eq _ 0 (by norm_num) (by norm_num) (by norm_num)
    simp only [printFloat, lt_self_iff_false, if_false, roundingLoop, id_eq, hint, hu0,
      fracLoop]
    simp [size_t]
  · have hneg : ((-3 : ℚ) / 2 < 0) := by norm_num
    have hint : toULong (-(-3 / 2) + 1 / 2) = some 2 :=
      toULong_eq _ 2 (by norm_num) (by norm_num) (by norm_num)
    simp only [printFloat, hneg, if_true, roundingLoop, id_eq, hint, hu2, fracLoop]
    simp [size_t]

/-! ## `printFloat` in binary32 arithmetic -/

/-- A positive `q` with `2 ^ e ≤ q < 2 ^ (e + 1)` that lies less than half a
unit in the last place from `k * 2 ^ (e - 23)` is rounded to that number. -/
theorem binary32_eq (q v : ℚ) (e : Int) (k : Nat) (he : -126 ≤ e)
    (h0 : (2 : ℚ) ^ e ≤ q) (h1 : q < 2 ^ (e + 1))
    (hlo : (k : ℚ) - 1 / 2 < q / 2 ^ (e - 23)) (hhi : q / 2 ^ (e - 23) < k + 1 / 2)
    (hv : v = k * 2 ^ (e - 23)) :
    binary32 q = v := by
  have hq : 0 < q := lt_of_lt_of_le (by positivity) h0
  have hlog : Int.log 2 q = e := by
    apply le_antisymm
    · have := (Int.lt_zpow_iff_log_lt (R := ℚ) (b := 2) (by norm_num) hq (x := e + 1)).mp
        (by exact_mod_cast h1)
      omega
    · exact (Int.zpow_le_iff_le_log (R := ℚ) (b := 2) (by norm_num) hq).mp (by exact_mod_cast h0)
  rw [hv]
  unfold binary32
  simp only [abs_of_pos hq, hlog, max_eq_left he, not_lt.mpr hq.le, if_false]
  congr 1
  rcases lt_or_le (q / 2 ^ (e - 23)) (k : ℚ) with hlt | hge
  · have hf : ⌊q / 2 ^ (e - 23)⌋ = (k : Int) - 1 := by
      rw [Int.floor_eq_iff]
      push_cast
      constructor <;> linarith
    rw [hf]
    push_cast
    rw [if_neg (by linarith), if_pos (by linarith)]
    ring
  · have hf : ⌊q / 2 ^ (e - 23)⌋ = (k : Int) := by
      rw [Int.floor_eq_iff]
      push_cast
      constructor <;> linarith
    rw [hf]
    push_cast
    rw [if_pos (by linarith)]

theorem binary32_zero : binary32 0 = 0 := by
  simp [binary32]

/-- Where rounding shows: `printFloat(0.125, 2)` writes `0.12` in binary32
arithmetic, since `0.5 / 10 / 10` is rounded to a number below `0.005`, and
`0.13` in exact arithmetic. -/
theorem printFloat_binary32_eighth :
    printFloat binary32 (allTables .long) (1 / 8) 2 = some (['0', '.', '1', '2'], 4) ∧
      printFloat id (allTables .long) (1 / 8) 2 = some (['0', '.', '1', '3'], 4) := by
  have hi1 := print_int_digit (allTables .long) 1 (by decide) (by norm_num)
  have hi2 := print_int_digit (allTables .long) 2 (by decide) (by norm_num)
  have hi3 := print_int_digit (allTables .long) 3 (by decide) (by norm_num)
  have hu0 := print_ulong_digit (allTables .long) 0 (by decide) (by norm_num)
  have hp0 : pgm_read_digit (allTables .long).flashAfter 0 = '0' := rfl
  have hp1 : pgm_read_digit (allTables .long).flashAfter 1 = '1' := rfl
  have hp2 : pgm_read_digit (allTables .long).flashAfter 2 = '2' := rfl
  have hp3 : pgm_read_digit (allTables .long).flashAfter 3 = '3' := rfl
  rw [hp0] at hu0
  rw [hp1] at hi1
  rw [hp2] at hi2
  rw [hp3] at hi3
  have hneg : ¬((1 : ℚ) / 8 < 0) := by norm_num
  refine ⟨?_, ?_⟩
  swap
  · have hround : roundingLoop id 2 (1 / 2) = 1 / 200 := by
      simp only [roundingLoop, id_eq]; norm_num
    have hint : toULong (1 / 8 + 1 / 200) = some 0 :=
      toULong_eq _ 0 (by norm_num) (by norm_num) (by norm_num)
    have hd1 : toInt16 ((1 / 8 + 1 / 200 - ((0 : Nat) : ℚ)) * 10) = some ((1 : Nat) : Int) :=
      toInt16_eq _ 1 (by norm_num) (by norm_num) (by norm_num)
    have hd2 : toInt16 (((1 / 8 + 1 / 200 - ((0 : Nat) : ℚ)) * 10 - ((1 : Nat) : Int)) * 10)
        = some ((3 : Nat) : Int) :=
      toInt16_eq _ 3 (by norm_num) (by norm_num) (by norm_num)
    simp only [printFloat, hneg, if_false, hround, id_eq, hint, hu0, fracLoop, hd1, hd2, hi1,
      hi3]
    simp [size_t]
  have r1 : binary32 (1 / 2 / 10) = 13421773 / 268435456 :=
    binary32_eq _ _ (-5) 13421773 (by norm_num) (by norm_num) (by norm_num) (by norm_num)
      (by norm_num) (by norm_num)
  have r2 : binary32 (13421773 / 268435456 / 10) = 5368709 / 1073741824 :=
    binary32_eq _ _ (-8) 10737418 (by norm_num) (by norm_num) (by norm_num) (by norm_num)
      (by norm_num) (by norm_num)
  have r3 : binary32 (1 / 8 + 5368709 / 1073741824) = 1090519 / 8388608 :=
    binary32_eq _ _ (-3) 8724152 (by norm_num) (by norm_num) (by norm_num) (by norm_num)
      (by norm_num) (by norm_num)
  have hint : toULong (1090519 / 8388608) = some 0 :=
    toULong_eq _ 0 (by norm_num) (by norm_num) (by norm_num)
  have r4 : binary32 (((0 : Nat) : ℚ)) = 0 := by
    rw [Nat.cast_zero, binary32_zero]
  have r5 : binary32 (1090519 / 8388608 - 0) = 1090519 / 8388608 :=
    binary32_eq _ _ (-3) 8724152 (by norm_num) (by norm_num) (by norm_num) (by norm_num)
      (by norm_num) (by norm_num)
  have r6 : binary32 (1090519 / 8388608 * 10) = 5452595 / 4194304 :=
    binary32_eq _ _ 0 10905190 (by norm_num) (by norm_num) (by norm_num) (by norm_num)
      (by norm_num) (by norm_num)
  have hd1 : toInt16 (5452595 / 4194304) = some ((1 : Nat) : Int) :=
    toInt16_eq _ 1 (by norm_num) (by norm_num) (by norm_num)
  have r7 : binary32 (5452595 / 4194304 - (((1 : Nat) : Int) : ℚ)) = 1258291 / 4194304 :=
    binary32_eq _ _ (-2) 10066328 (by norm_num) (by norm_num) (by norm_num) (by norm_num)
      (by norm_num) (by norm_num)
  have r8 : binary32 (1258291 / 4194304 * 10) = 6291455 / 2097152 :=
    binary32_eq _ _ 1 12582910 (by norm_num) (by norm_num) (by norm_num) (by norm_num)
      (by norm_num) (by norm_num)
  have hd2 : toInt16 (6291455 / 2097152) = some ((2 : Nat) : Int) :=
    toInt16_eq _ 2 (by norm_num) (by norm_num) (by norm_num)
  simp only [printFloat, hneg, if_false, roundingLoop, r1, r2, r3, hint, r4, r5, hu0, fracLoop,
    r6, hd1, hi1, r7, r8, hd2, hi2]
  simp [size_t]

/-- The calls `printFloat(1.999, 2)`, `printFloat(0.0, 0)` and
`printFloat(-1.5, 0)` in binary32 arithmetic, the first one on the `double`
nearest to `1.999`, in a build with the 32-bit print type that can print
decimal: the output is the same as in exact arithmetic. -/
theorem printFloat_binary32_examples (cfg : Config) (h : cfg.longDecimal = true) :
    printFloat binary32 cfg (binary32 (1999 / 1000)) 2 = some (['2', '.', '0', '0'], 4) ∧
      printFloat binary32 cfg 0 0 = some (['0'], 1) ∧
      printFloat binary32 cfg (-3 / 2) 0 = some (['-', '2'], 2) := by
  have hi0 := print_int_digit cfg 0 h (by norm_num)
  have hu0 := print_ulong_digit cfg 0 h (by norm_num)
  have hu2 := print_ulong_digit cfg 2 h (by norm_num)
  have hp0 : pgm_read_digit cfg.flashAfter 0 = '0' := rfl
  have hp2 : pgm_read_digit cfg.flashAfter 2 = '2' := rfl
  rw [hp0] at hi0 hu0
  rw [hp2] at hu2
  refine ⟨?_, ?_, ?_⟩
  · have hx : binary32 (1999 / 1000) = 16768827 / 8388608 :=
      binary32_eq _ _ 0 16768827 (by norm_num) (by norm_num) (by norm_num) (by norm_num)
        (by norm_num) (by norm_num)
    have hneg : ¬((16768827 : ℚ) / 8388608 < 0) := by norm_num
    have r1 : binary32 (1 / 2 / 10) = 13421773 / 268435456 :=
      binary32_eq _ _ (-5) 13421773 (by norm_num) (by norm_num) (by norm_num) (by norm_num)
        (by norm_num) (by norm_num)
    have r2 : binary32 (13421773 / 268435456 / 10) = 5368709 / 1073741824 :=
      binary32_eq _ _ (-8) 10737418 (by norm_num) (by norm_num) (by norm_num) (by norm_num)
        (by norm_num) (by norm_num)
    have r3 : binary32 (16768827 / 8388608 + 5368709 / 1073741824) = 8405385 / 4194304 :=
      binary32_eq _ _ 1 8405385 (by norm_num) (by norm_num) (by norm_num) (by norm_num)
        (by norm_num) (by norm_num)
    have hint : toULong (8405385 / 4194304) = some 2 :=
      toULong_eq _ 2 (by norm_num) (by norm_num) (by norm_num)
    have r4 : binary32 (((2 : Nat) : ℚ)) = 2 :=
      binary32_eq _ _ 1 8388608 (by norm_num) (by norm_num) (by norm_num) (by norm_num)
        (by norm_num) (by norm_num)
    have r5 : binary32 (8405385 / 4194304 - 2) = 16777 / 4194304 :=
      binary32_eq _ _ (-8) 8589824 (by norm_num) (by norm_num) (by norm_num) (by norm_num)
        (by norm_num) (by norm_num)
    have r6 : binary32 (16777 / 4194304 * 10) = 83885 / 2097152 :=
      binary32_eq _ _ (-5) 10737280 (by norm_num) (by norm_num) (by norm_num) (by norm_num)
        (by norm_num) (by norm_num)
    have hd1 : toInt16 (83885 / 2097152) = some ((0 : Nat) : Int) :=
      toInt16_eq _ 0 (by norm_num) (by norm_num) (by norm_num)
    have r7 : binary32 (83885 / 2097152 - (((0 : Nat) : Int) : ℚ)) = 83885 / 2097152 :=
      binary32_eq _ _ (-5) 10737280 (by norm_num) (by norm_num) (by norm_num) (by norm_num)
        (by norm_num) (by norm_num)
    have r8 : binary32 (83885 / 2097152 * 10) = 419425 / 1048576 :=
      binary32_eq _ _ (-2) 13421600 (by norm_num) (by norm_num) (by norm_num) (by norm_num)
        (by norm_num) (by norm_num)
    have hd2 : toInt16 (419425 / 1048576) = some ((0 : Nat) : Int) :=
      toInt16_eq _ 0 (by norm_num) (by norm_num) (by norm_num)
    rw [hx]
    simp only [printFloat, hneg, if_false, roundingLoop, r1, r2, r3, hint, r4, r5, hu2, fracLoop,
      r6, hd1, hi0, r7, r8, hd2]
    simp [size_t]
  · have r1 : binary32 (0 + 1 / 2) = 1 / 2 :=
      binary32_eq _ _ (-1) 8388608 (by norm_num) (by norm_num) (by norm_num) (by norm_num)
        (by norm_num) (by norm_num)
    have hint : toULong (1 / 2) = some 0 :=
      toULong_eq _ 0 (by norm_num) (by norm_num) (by norm_num)
    simp only [printFloat, lt_self_iff_false, if_false, roundingLoop, r1, hint, hu0, fracLoop]
    simp [size_t]
  · have hneg : ((-3 : ℚ) / 2 < 0) := by norm_num
    have r1 : binary32 (-(-3 / 2) + 1 / 2) = 2 :=
      binary32_eq _ _ 1 8388608 (by norm_num) (by norm_num) (by norm_num) (by norm_num)
        (by norm_num) (by norm_num)
    have hint : toULong 2 = some 2 :=
      toULong_eq _ 2 (by norm_num) (by norm_num) (by norm_num)
    simp only [printFloat, hneg, if_true, roundingLoop, r1, hint, hu2, fracLoop]
    simp [size_t]

/-! ## `read_str` -/

theorem buf_store (s : ReadState) (entry : Int → Nat) (i idx : Int) (v : Nat) :
    (s.store i v).buf entry idx = if idx = i then v else s.buf entry idx := by
  unfold ReadState.store ReadState.buf
  by_cases h : idx = i
  · simp [List.find?, h]
  · have h2 : ¬ i = idx := fun e => h e.symm
    simp [List.find?, h, h2]

/-- The poll loop when the next `g` calls fail and the one after them delivers
a byte, with more than `g` retries left. -/
theorem pollLoop_receive (rx : Nat → Nat) (i : Nat) :
    ∀ (g fuel : Nat) (s : ReadState), g < fuel → g < s.t → s.t ≤ 65535 →
      (∀ q, s.polls ≤ q → q < s.polls + g → rx q % 256 = 0) →
      rx (s.polls + g) % 256 ≠ 0 →
      ∃ s2, pollLoop rx i fuel s = some s2 ∧ s2.t = s.t - g ∧ s2.polls = s.polls + g + 1 ∧
        (∀ entry idx, s2.buf entry idx =
          if idx = (i : Int) then rx (s.polls + g) % 256 else s.buf entry idx) ∧
        (∀ w ∈ s2.writes, w = (i : Int) ∨ w ∈ s.writes) := by
  intro g
  induction g with
  | zero =>
    intro fuel s hf _ _ _ hc
    obtain ⟨fuel, rfl⟩ : ∃ f, fuel = f + 1 := ⟨fuel - 1, by omega⟩
    simp only [Nat.add_zero] at hc
    refine ⟨(s.store i (rx s.polls % 256)).poll, ?_, rfl, rfl, ?_, ?_⟩
    · simp only [pollLoop, ne_eq, hc, not_false_eq_true, if_true]
    · intro entry idx
      exact buf_store s entry i idx _
    · intro w hw
      simpa [ReadState.writes, ReadState.poll, ReadState.store] using hw
  | succ g ih =>
    intro fuel s hf ht ht2 hz hc
    obtain ⟨fuel, rfl⟩ : ∃ f, fuel = f + 1 := ⟨fuel - 1, by omega⟩
    have h0 : rx s.polls % 256 = 0 := hz s.polls (le_refl _) (by omega)
    have hdec : ((s.store i 0).poll.t + 65535) % 65536 = s.t - 1 := by
      show (s.t + 65535) % 65536 = s.t - 1
      omega
    have hne : s.t - 1 ≠ 0 := by omega
    obtain ⟨s2, h1, h2, h3, h4, h5⟩ := ih fuel (((s.store i 0).poll).setT (s.t - 1))
      (by omega) (by show g < s.t - 1; omega) (by show s.t - 1 ≤ 65535; omega)
      (by
        intro q hq1 hq2
        exact hz q (by have : s.polls + 1 ≤ q := hq1
                       omega) (by have : q < s.polls + 1 + g := hq2
                                  omega))
      (by
        have : s.polls + 1 + g = s.polls + (g + 1) := by omega
        show rx (s.polls + 1 + g) % 256 ≠ 0
        rw [this]
        exact hc)
    refine ⟨s2, ?_, ?_, ?_, ?_, ?_⟩
    · simp only [pollLoop, h0, ne_eq, not_true_eq_false, if_false, hdec, hne,
        not_false_eq_true, if_true]
      exact h1
    · rw [h2]
      show s.t - 1 - g = s.t - (g + 1)
      omega
    · rw [h3]
      show s.polls + 1 + g + 1 = s.polls + (g + 1) + 1
      omega
    · intro entry idx
      rw [h4 entry idx]
      have hb : (((s.store i 0).poll).setT (s.t - 1)).buf entry idx =
          (s.store i 0).buf entry idx := rfl
      have hp : ((s.store i 0).poll.setT (s.t - 1)).polls + g = s.polls + (g + 1) := by
        show s.polls + 1 + g = s.polls + (g + 1)
        omega
      rw [hb, buf_store, hp]
      split <;> rfl
    · intro w hw
      rcases h5 w hw with h | h
      · exact Or.inl h
      · have hw2 : w ∈ (s.store i 0).writes := h
        simpa [ReadState.writes, ReadState.store] using hw2

/-- The poll loop when every call fails until the retries are used up. -/
theorem pollLoop_timeout (rx : Nat → Nat) (i : Nat) :
    ∀ (t fuel : Nat) (s : ReadState), s.t = t + 1 → t < fuel → s.t ≤ 65535 →
      (∀ q, s.polls ≤ q → q < s.polls + s.t → rx q % 256 = 0) →
      ∃ s2, pollLoop rx i fuel s = some s2 ∧ s2.t = 0 ∧ s2.polls = s.polls + s.t ∧
        (∀ entry idx, s2.buf entry idx = if idx = (i : Int) then 0 else s.buf entry idx) ∧
        (∀ w ∈ s2.writes, w = (i : Int) ∨ w ∈ s.writes) := by
  intro t
  induction t with
  | zero =>
    intro fuel s ht hf _ hz
    obtain ⟨fuel, rfl⟩ : ∃ f, fuel = f + 1 := ⟨fuel - 1, by omega⟩
    have h0 : rx s.polls % 256 = 0 := hz s.polls (le_refl _) (by omega)
    have hdec : ((s.store i 0).poll.t + 65535) % 65536 = 0 := by
      show (s.t + 65535) % 65536 = 0
      omega
    refine ⟨((s.store i 0).poll).setT 0, ?_, rfl, ?_, ?_, ?_⟩
    · simp only [pollLoop, h0, ne_eq, not_true_eq_false, if_false, hdec]
    · show s.polls + 1 = s.polls + s.t
      omega
    · intro entry idx
      exact buf_store s entry i idx 0
    · intro w hw
      have hw2 : w ∈ (s.store i 0).writes := hw
      simpa [ReadState.writes, ReadState.store] using hw2
  | succ t ih =>
    intro fuel s ht hf ht2 hz
    obtain ⟨fuel, rfl⟩ : ∃ f, fuel = f + 1 := ⟨fuel - 1, by omega⟩
    have h0 : rx s.polls % 256 = 0 := hz s.polls (le_refl _) (by omega)
    have hdec : ((s.store i 0).poll.t + 65535) % 65536 = t + 1 := by
      show (s.t + 65535) % 65536 = t + 1
      omega
    obtain ⟨s2, h1, h2, h3, h4, h5⟩ := ih fuel (((s.store i 0).poll).setT (t + 1)) rfl
      (by omega) (by show t + 1 ≤ 65535; omega)
      (by
        intro q hq1 hq2
        exact hz q (by have : s.polls + 1 ≤ q := hq1
                       omega) (by have : q < s.polls + 1 + (t + 1) := hq2
                                  omega))
    refine ⟨s2, ?_, h2, ?_, ?_, ?_⟩
    · simp only [pollLoop, h0, ne_eq, not_true_eq_false, if_false, hdec, Nat.add_one_ne_zero,
        not_false_eq_true, if_true]
      exact h1
    · rw [h3]
      show s.polls + 1 + (t + 1) = s.polls + s.t
      omega
    · intro entry idx
      rw [h4 entry idx]
      have hb : (((s.store i 0).poll).setT (t + 1)).buf entry idx =
          (s.store i 0).buf entry idx := rfl
      rw [hb, buf_store]
      split <;> rfl
    · intro w hw
      rcases h5 w hw with h | h
      · exact Or.inl h
      · have hw2 : w ∈ (s.store i 0).writes := h
        simpa [ReadState.writes, ReadState.store] using hw2

/-- Whatever the calls return, the poll loop ends within the retries left, and
it stores to `buf[i]` only. -/
theorem pollLoop_total (rx : Nat → Nat) (i : Nat) :
    ∀ (t fuel : Nat) (s : ReadState), s.t = t + 1 → t < fuel → s.t ≤ 65535 →
      ∃ s2, pollLoop rx i fuel s = some s2 ∧ s2.t ≤ s.t ∧
        (∀ w ∈ s2.writes, w = (i : Int) ∨ w ∈ s.writes) := by
  intro t
  induction t with
  | zero =>
    intro fuel s ht hf _
    obtain ⟨fuel, rfl⟩ : ∃ f, fuel = f + 1 := ⟨fuel - 1, by omega⟩
    by_cases hc : rx s.polls % 256 = 0
    · have hdec : ((s.store i 0).poll.t + 65535) % 65536 = 0 := by
        show (s.t + 65535) % 65536 = 0
        omega
      refine ⟨((s.store i 0).poll).setT 0, ?_, Nat.zero_le _, ?_⟩
      · simp only [pollLoop, hc, ne_eq, not_true_eq_false, if_false, hdec]
      · intro w hw
        have hw2 : w ∈ (s.store i 0).writes := hw
        simpa [ReadState.writes, ReadState.store] using hw2
    · refine ⟨(s.store i (rx s.polls % 256)).poll, ?_, le_refl _, ?_⟩
      · simp only [pollLoop, ne_eq, hc, not_false_eq_true, if_true]
      · intro w hw
        have hw2 : w ∈ (s.store i (rx s.polls % 256)).writes := hw
        simpa [ReadState.writes, ReadState.store] using hw2
  | succ t ih =>
    intro fuel s ht hf ht2
    obtain ⟨fuel, rfl⟩ : ∃ f, fuel = f + 1 := ⟨fuel - 1, by omega⟩
    by_cases hc : rx s.polls % 256 = 0
    · have hdec : ((s.store i 0).poll.t + 65535) % 65536 = t + 1 := by
        show (s.t + 65535) % 65536 = t + 1
        omega
      obtain ⟨s2, h1, h2, h5⟩ := ih fuel (((s.store i 0).poll).setT (t + 1)) rfl
        (by omega) (by show t + 1 ≤ 65535; omega)
      refine ⟨s2, ?_, ?_, ?_⟩
      · simp only [pollLoop, hc, ne_eq, not_true_eq_false, if_false, hdec,
          Nat.add_one_ne_zero, not_false_eq_true, if_true]
        exact h1
      · have : s2.t ≤ t + 1 := h2
        omega
      · intro w hw
        rcases h5 w hw with h | h
        · exact Or.inl h
        · have hw2 : w ∈ (s.store i 0).writes := h
          simpa [ReadState.writes, ReadState.store] using hw2
    · refine ⟨(s.store i (rx s.polls % 256)).poll, ?_, le_refl _, ?_⟩
      · simp only [pollLoop, ne_eq, hc, not_false_eq_true, if_true]
      · intro w hw
        have hw2 : w ∈ (s.store i (rx s.polls % 256)).writes := hw
        simpa [ReadState.writes, ReadState.store] using hw2

/-- The read loop on a line that delivers the bytes of `events` within the
retries left and nothing afterwards: the bytes land in `buf[i..]` in order, a
zero follows them, the memory below `buf[i]` is left alone, and the loop ends
when the retries are used up. -/
theorem readLoop_delivers (rx : Nat → Nat) (length : Nat) (hlen : length ≤ 255) :
    ∀ (events : List (Nat × Nat)) (fuel i : Nat) (s : ReadState),
      Delivers rx s.polls events → (events.map Prod.fst).sum < s.t → s.t ≤ 65535 →
      i + events.length + 2 ≤ length → events.length < fuel →
      ∃ s2, readLoop rx length fuel i s = some (i + events.length + 1, s2) ∧
        s2.polls = s.polls + s.t + events.length ∧
        ∀ entry : Int → Nat,
          (∀ (j : Nat) (hj : j < events.length),
            s2.buf entry ((i + j : Nat) : Int) = (events.get ⟨j, hj⟩).2) ∧
          s2.buf entry ((i + events.length : Nat) : Int) = 0 ∧
          (∀ idx : Int, idx < (i : Int) → s2.buf entry idx = s.buf entry idx) := by
  intro events
  induction events with
  | nil =>
    intro fuel i s hd hsum ht hi hf
    obtain ⟨fuel, rfl⟩ : ∃ f, fuel = f + 1 := ⟨fuel - 1, by omega⟩
    simp only [List.map_nil, List.sum_nil] at hsum
    obtain ⟨s1, h1, h2, h3, h4, _⟩ := pollLoop_timeout rx i (s.t - 1) 65536 s (by omega)
      (by omega) ht (fun q hq _ => hd q hq)
    refine ⟨s1, ?_, ?_, ?_⟩
    · simp only [readLoop, h1, h2, ne_eq, not_true_eq_false, and_false, if_false,
        List.length_nil, Nat.add_zero]
      rw [Nat.mod_eq_of_lt (by simp only [List.length_nil] at hi; omega)]
    · simpa using h3
    · intro entry
      refine ⟨fun j hj => absurd hj (Nat.not_lt_zero _), ?_, ?_⟩
      · rw [h4]
        simp
      · intro idx hidx
        rw [h4, if_neg (by omega)]
  | cons e es ih =>
    intro fuel i s hd hsum ht hi hf
    obtain ⟨g, c⟩ := e
    obtain ⟨fuel, rfl⟩ : ∃ f, fuel = f + 1 := ⟨fuel - 1, by omega⟩
    obtain ⟨hz, hc, hc0, hrest⟩ := hd
    simp only [List.map_cons, List.sum_cons, List.length_cons] at hsum hi hf
    obtain ⟨s1, h1, h2, h3, h4, _⟩ := pollLoop_receive rx i g 65536 s (by omega) (by omega) ht
      hz (by rw [hc]; exact hc0)
    obtain ⟨s2, k1, k2, k3⟩ := ih fuel (i + 1) s1 (by rw [h3]; exact hrest)
      (by rw [h2]; omega) (by rw [h2]; omega) (by omega) (by omega)
    have hi1 : (i + 1) % 256 = i + 1 := Nat.mod_eq_of_lt (by omega)
    have hcond : (((i + 1 : Nat) : Int) < (length : Int) - 1) ∧ s1.t ≠ 0 :=
      ⟨by omega, by rw [h2]; omega⟩
    refine ⟨s2, ?_, ?_, ?_⟩
    · simp only [readLoop, h1, hi1, List.length_cons]
      rw [if_pos hcond, k1, show i + 1 + es.length + 1 = i + (es.length + 1) + 1 by omega]
    · rw [k2, h2, h3]
      simp only [List.length_cons]
      omega
    · intro entry
      obtain ⟨m1, m2, m3⟩ := k3 entry
      refine ⟨?_, ?_, ?_⟩
      · intro j hj
        cases j with
        | zero =>
          rw [Nat.add_zero, m3 _ (by omega), h4, if_pos rfl, hc]
          rfl
        | succ j =>
          have hj2 : j < es.length := by
            simp only [List.length_cons] at hj
            omega
          have := m1 j hj2
          rw [show i + 1 + j = i + (j + 1) by omega] at this
          rw [this]
          rfl
      · simp only [List.length_cons]
        rw [show i + (es.length + 1) = i + 1 + es.length by omega]
        exact m2
      · intro idx hidx
        rw [m3 idx (by omega), h4, if_neg (by omega)]

/-- Whatever the calls return, the read loop ends, with `i` at most
`length - 1`, and every index it stores to lies from the starting `i` up to,
not including, the final `i`. -/
theorem readLoop_total (rx : Nat → Nat) (length : Nat) (hlen : length ≤ 255) :
    ∀ (fuel i : Nat) (s : ReadState), 1 ≤ s.t → s.t ≤ 65535 → i + 2 ≤ length →
      length ≤ fuel + i + 1 →
      ∃ i2 s2, readLoop rx length fuel i s = some (i2, s2) ∧ i < i2 ∧ i2 + 1 ≤ length ∧
        (∀ w ∈ s2.writes, ((i : Int) ≤ w ∧ w < (i2 : Int)) ∨ w ∈ s.writes) := by
  intro fuel
  induction fuel with
  | zero => intro i s _ _ hi hf; omega
  | succ fuel ih =>
    intro i s ht1 ht2 hi hf
    obtain ⟨s1, h1, h2, h3⟩ := pollLoop_total rx i (s.t - 1) 65536 s (by omega) (by omega) ht2
    have hi1 : (i + 1) % 256 = i + 1 := Nat.mod_eq_of_lt (by omega)
    by_cases hcond : (((i + 1 : Nat) : Int) < (length : Int) - 1) ∧ s1.t ≠ 0
    · obtain ⟨i2, s2, k1, k2, k3, k4⟩ := ih (i + 1) s1 (by omega) (by omega) (by omega)
        (by omega)
      refine ⟨i2, s2, ?_, by omega, k3, ?_⟩
      · simp only [readLoop, h1, hi1]
        rw [if_pos hcond, k1]
      · intro w hw
        rcases k4 w hw with h | h
        · exact Or.inl ⟨by omega, h.2⟩
        · rcases h3 w h with h' | h'
          · exact Or.inl ⟨by omega, by omega⟩
          · exact Or.inr h'
    · refine ⟨i + 1, s1, ?_, by omega, by omega, ?_⟩
      · simp only [readLoop, h1, hi1]
        rw [if_neg hcond]
      · intro w hw
        rcases h3 w hw with h' | h'
        · exact Or.inl ⟨by omega, by omega⟩
        · exact Or.inr h'

theorem readLoop_succ (rx : Nat → Nat) (length fuel i : Nat) (s : ReadState) :
    readLoop rx length (fuel + 1) i s =
      match pollLoop rx i 65536 s with
      | none => none
      | some s =>
        if (((i + 1) % 256 : Nat) : Int) < (length : Int) - 1 ∧ s.t ≠ 0 then
          readLoop rx length fuel ((i + 1) % 256) s
        else some ((i + 1) % 256, s) := rfl

/-- The state `read_str` starts its loop in. -/
theorem read_str_eq (rx : Nat → Nat) (length : Nat) :
    read_str rx length =
      match readLoop rx length 256 0
          ((ReadState.mk [] 0xFFFF 0).store ((length : Int) - 1) 0) with
      | none => none
      | some (i, s) => some (s.store i 0) := rfl

/-- C8. For every `length` from 2 on and every sequence of calls of
`RxByteNBZeroReturn` that delivers exactly `k` non-zero bytes, `k ≤ length - 2`,
with fewer than 65535 failed calls before the last of them and only failed
calls afterwards, `read_str(buf, length)` returns with `buf[0..k-1]` holding
those bytes in the order of arrival and `buf[k] = 0`, whatever `buf` held
before. -/
theorem read_str_delivers (rx : Nat → Nat) (length : Nat) (events : List (Nat × Nat))
    (h2 : 2 ≤ length) (hlen : length ≤ 255) (hk : events.length ≤ length - 2)
    (hd : Delivers rx 0 events) (hg : (events.map Prod.fst).sum < 65535) :
    ∃ s, read_str rx length = some s ∧
      ∀ entry : Int → Nat,
        (∀ (j : Nat) (hj : j < events.length),
          s.buf entry (j : Int) = (events.get ⟨j, hj⟩).2) ∧
        s.buf entry (events.length : Int) = 0 := by
  obtain ⟨s2, k1, _, k3⟩ := readLoop_delivers rx length hlen events 256 0
    ((ReadState.mk [] 0xFFFF 0).store ((length : Int) - 1) 0) hd
    (by show (events.map Prod.fst).sum < 0xFFFF; omega) (by show 0xFFFF ≤ 65535; omega)
    (by omega) (by omega)
  refine ⟨s2.store ((0 + events.length + 1 : Nat) : Int) 0, ?_, ?_⟩
  · rw [read_str_eq, k1]
  · intro entry
    obtain ⟨m1, m2, _⟩ := k3 entry
    refine ⟨?_, ?_⟩
    · intro j hj
      rw [buf_store, if_neg (by omega)]
      have := m1 j hj
      rw [Nat.zero_add] at this
      exact this
    · rw [buf_store, if_neg (by omega)]
      rw [Nat.zero_add] at m2
      exact m2

theorem read_str_delivers_witness :
    ∃ s, read_str (fun p => if p = 1 then 72 else if p = 3 then 105 else 0) 4 = some s ∧
      ∀ entry : Int → Nat,
        (∀ (j : Nat) (hj : j < [(1, 72), (1, 105)].length),
          s.buf entry (j : Int) = ([(1, 72), (1, 105)].get ⟨j, hj⟩).2) ∧
        s.buf entry ([(1, 72), (1, 105)].length : Int) = 0 :=
  read_str_delivers (fun p => if p = 1 then 72 else if p = 3 then 105 else 0) 4
    [(1, 72), (1, 105)] (by decide) (by decide) (by decide)
    (by
      refine ⟨?_, by decide, by decide, ?_, by decide, by decide, ?_⟩
      · intro q h1 h2
        have : q = 0 := by omega
        subst this
        decide
      · intro q h1 h2
        have : q = 2 := by omega
        subst this
        decide
      · intro q h1
        have h3 : q ≠ 1 := by omega
        have h4 : q ≠ 3 := by omega
        simp [h3, h4])
    (by decide)

/-- C9. If every call of `RxByteNBZeroReturn` returns 0 then, for every
`length` from 2 on, `read_str(buf, length)` returns after exactly 65535 calls
and leaves the empty string in `buf` (`buf[0] = 0`), whatever `buf` held
before. -/
theorem read_str_no_input (rx : Nat → Nat) (length : Nat) (h2 : 2 ≤ length)
    (hlen : length ≤ 255) (hz : ∀ q, rx q = 0) :
    ∃ s, read_str rx length = some s ∧ s.polls = 65535 ∧
      ∀ entry : Int → Nat, s.buf entry 0 = 0 := by
  obtain ⟨s2, k1, k2, k3⟩ := readLoop_delivers rx length hlen [] 256 0
    ((ReadState.mk [] 0xFFFF 0).store ((length : Int) - 1) 0)
    (by intro q _; rw [hz q])
    (by show (0 : Nat) < 0xFFFF; omega) (by show 0xFFFF ≤ 65535; omega)
    (by simp only [List.length_nil]; omega) (by simp)
  refine ⟨s2.store ((0 + ([] : List (Nat × Nat)).length + 1 : Nat) : Int) 0, ?_, ?_, ?_⟩
  · rw [read_str_eq, k1]
  · have hp : (s2.store ((0 + ([] : List (Nat × Nat)).length + 1 : Nat) : Int) 0).polls =
        s2.polls := rfl
    rw [hp, k2]
    simp [ReadState.store]
  · intro entry
    obtain ⟨_, m2, _⟩ := k3 entry
    rw [buf_store, if_neg (by simp)]
    exact m2

theorem read_str_no_input_witness :
    ∃ s, read_str (fun _ => 0) 2 = some s ∧ s.polls = 65535 ∧
      ∀ entry : Int → Nat, s.buf entry 0 = 0 :=
  read_str_no_input (fun _ => 0) 2 (by decide) (by decide) (fun _ => rfl)

/-- C10 fails on the code for `length = 1`: whatever the calls return, the body
of the `do` loop runs once, `i` is 1 afterwards, and the final terminator is
stored to `buf[1]`, one past the end of a buffer of one byte. -/
theorem read_str_length_one (rx : Nat → Nat) :
    ∃ s, read_str rx 1 = some s ∧ s.writes.head? = some 1 ∧
      ¬ ((1 : Int) ≤ ((1 : Nat) : Int) - 1) := by
  obtain ⟨s1, h1, _, _⟩ := pollLoop_total rx 0 65534 65536
    ((ReadState.mk [] 0xFFFF 0).store (((1 : Nat) : Int) - 1) 0) rfl (by omega)
    (by show 0xFFFF ≤ 65535; omega)
  refine ⟨s1.store ((1 : Nat) : Int) 0, ?_, rfl, by omega⟩
  rw [read_str_eq, show (256 : Nat) = 255 + 1 from rfl, readLoop_succ, h1]
  rfl

/-- For a `length` from 2 on `read_str` returns whatever the calls return, and
every index it stores to, that of the final terminator included, lies in the
buffer. -/
theorem read_str_writes_in_bounds (rx : Nat → Nat) (length : Nat) (h2 : 2 ≤ length)
    (hlen : length ≤ 255) :
    ∃ s, read_str rx length = some s ∧
      ∀ w ∈ s.writes, 0 ≤ w ∧ w ≤ (length : Int) - 1 := by
  obtain ⟨i2, s2, k1, _, k3, k4⟩ := readLoop_total rx length hlen 256 0
    ((ReadState.mk [] 0xFFFF 0).store ((length : Int) - 1) 0)
    (by show 1 ≤ 0xFFFF; omega) (by show 0xFFFF ≤ 65535; omega) (by omega) (by omega)
  refine ⟨s2.store (i2 : Int) 0, ?_, ?_⟩
  · rw [read_str_eq, k1]
  · intro w hw
    have hw2 : w = (i2 : Int) ∨ w ∈ s2.writes := by
      simpa [ReadState.writes, ReadState.store] using hw
    rcases hw2 with h | h
    · omega
    · rcases k4 w h with h' | h'
      · omega
      · have : w = (length : Int) - 1 := by
          simpa [ReadState.writes, ReadState.store] using h'
        omega

/-! ## `millis` and `micros` -/

/-- A call of `millis()` that no watchdog interrupt falls into returns
`wdt_interrupt_counter * 16` modulo `2 ^ 32`. -/
theorem millis_quiet (s : Timebase) :
    millis s quiet = (s.wdt_interrupt_counter * 16) % 2 ^ 32 := by
  simp only [millis, quiet, Function.iterate_zero, id_eq, pow_zero, pow_one, Nat.div_one]
  norm_num
  omega

theorem millis_step (s : Timebase) (e : Event) :
    millis (step s e) quiet =
      if e = .wdt then (millis s quiet + 16) % 2 ^ 32 else millis s quiet := by
  simp only [millis_quiet]
  cases e <;> simp only [step, WDT_vect, TIM0_OVF_vect, reduceCtorEq, if_true, if_false]
  omega

theorem millis_run (events : List Event) :
    ∀ s : Timebase,
      millis (run s events) quiet = (millis s quiet + 16 * events.count .wdt) % 2 ^ 32 := by
  induction events with
  | nil =>
    intro s
    simp only [run, List.foldl_nil, List.count_nil, Nat.mul_zero, Nat.add_zero, millis_quiet]
    omega
  | cons e es ih =>
    intro s
    have h := ih (step s e)
    simp only [run, List.foldl_cons] at h ⊢
    rw [h, millis_step, List.count_cons]
    by_cases he : e = .wdt
    · simp only [he, if_true, beq_self_eq_true]
      omega
    · have hne : (e == Event.wdt) = false := by simpa using he
      simp only [he, if_false, hne, Bool.false_eq_true]
      omega

/-- For calls of `millis()` that no watchdog interrupt falls into: each run of
the watchdog interrupt handler increases the value returned by exactly 16
modulo `2 ^ 32`, no other event changes it, and after any sequence of events
since reset that holds `k` watchdog interrupts the value is
`(16 * k) mod 2 ^ 32`. -/
theorem millis_counts_watchdog_interrupts :
    (∀ s : Timebase, millis (WDT_vect s) quiet = (millis s quiet + 16) % 2 ^ 32) ∧
      (∀ (s : Timebase) (e : Event), e ≠ .wdt → millis (step s e) quiet = millis s quiet) ∧
      (∀ events : List Event,
        millis (run Timebase.reset events) quiet = (16 * events.count .wdt) % 2 ^ 32) := by
  refine ⟨?_, ?_, ?_⟩
  · intro s
    have h := millis_step s .wdt
    simpa [step] using h
  · intro s e he
    rw [millis_step, if_neg he]
  · intro events
    rw [millis_run]
    simp [millis_quiet, Timebase.reset]

theorem wdt_iterate (k : Nat) :
    ∀ s : Timebase, (WDT_vect^[k] s).wdt_interrupt_counter =
      (s.wdt_interrupt_counter + k) % 2 ^ 32 ∨
      (k = 0 ∧ (WDT_vect^[k] s).wdt_interrupt_counter = s.wdt_interrupt_counter) := by
  induction k with
  | zero => intro s; right; exact ⟨rfl, rfl⟩
  | succ k ih =>
    intro s
    left
    rw [Function.iterate_succ_apply]
    rcases ih (WDT_vect s) with h | ⟨h0, h⟩
    · rw [h]
      simp only [WDT_vect]
      omega
    · rw [h]
      subst h0
      simp only [WDT_vect]

theorem millis_iterate (k : Nat) (s : Timebase) :
    millis (WDT_vect^[k] s) quiet = ((s.wdt_interrupt_counter + k) * 16) % 2 ^ 32 := by
  rw [millis_quiet]
  rcases wdt_iterate k s with h | ⟨h0, h⟩
  · rw [h]
    omega
  · rw [h, h0]
    simp

/-- The counter after `k` watchdog interrupts since reset, for `k` below
`2 ^ 32`. -/
theorem wdt_iterate_reset (k : Nat) (hk : k < 2 ^ 32) :
    WDT_vect^[k] Timebase.reset = ⟨k, 0⟩ := by
  induction k with
  | zero => rfl
  | succ k ih =>
    rw [Function.iterate_succ_apply', ih (by omega)]
    simp only [WDT_vect, Timebase.mk.injEq, and_true]
    omega

/-- C11 fails on the code: `millis()` loads the four bytes of the counter with
interrupts enabled.  After 255 watchdog interrupts since reset, a call of
`millis()` during which the 256th interrupt is handled after the load of byte 0
and before the loads of bytes 1 to 3 returns 8176, which is neither
`16 * 255` nor `16 * 256`; and where the interrupt is handled after the loads
of bytes 1 to 3 and before the load of byte 0, the call returns 0. -/
theorem millis_torn_read :
    millis (WDT_vect^[255] Timebase.reset) (fun i => if i = 0 then 0 else 1) = 8176 ∧
      8176 ≠ (16 * 255) % 2 ^ 32 ∧ 8176 ≠ (16 * 256) % 2 ^ 32 ∧
      millis (WDT_vect^[255] Timebase.reset) (fun i => if i = 0 then 1 else 0) = 0 ∧
      0 ≠ (16 * 255) % 2 ^ 32 ∧ 0 ≠ (16 * 256) % 2 ^ 32 := by
  rw [wdt_iterate_reset 255 (by norm_num)]
  decide

/-- A torn read also breaks the order of the values: after 255 watchdog
interrupts the call of `millis()` that the 256th interrupt falls into, after
the load of byte 0, returns 8176, and the next call returns 4096. -/
theorem millis_decreases_after_torn_read :
    millis (WDT_vect^[255] Timebase.reset) (fun i => if i = 0 then 0 else 1) = 8176 ∧
      millis (WDT_vect^[256] Timebase.reset) quiet = 4096 := by
  rw [wdt_iterate_reset 255 (by norm_num), wdt_iterate_reset 256 (by norm_num)]
  decide

/-- C12, as stated, fails: after `2 ^ 28 - 1` watchdog interrupts since reset
`millis()`, called with no interrupt falling into the call, returns
`2 ^ 32 - 16`, and after one more interrupt it returns 0. -/
theorem millis_wraps :
    millis (WDT_vect^[2 ^ 28 - 1] Timebase.reset) quiet = 4294967280 ∧
      millis (WDT_vect^[1] (WDT_vect^[2 ^ 28 - 1] Timebase.reset)) quiet = 0 := by
  rw [← Function.iterate_add_apply, millis_iterate, millis_iterate]
  decide

/-- C12, amended. For calls of `millis()` that no watchdog interrupt falls
into, `millis()` is non-decreasing as long as the watchdog counter stays below
`2 ^ 28`: for every counter state and every number `j` of subsequent watchdog
interrupts that leaves the counter below `2 ^ 28`, the later value is not
smaller than the earlier one. -/
theorem millis_monotone (s : Timebase) (j : Nat)
    (h : s.wdt_interrupt_counter + j < 2 ^ 28) :
    millis s quiet ≤ millis (WDT_vect^[j] s) quiet := by
  rw [millis_iterate j s, millis_quiet]
  omega

theorem millis_monotone_witness :
    millis (⟨1000, 0⟩ : Timebase) quiet ≤ millis (WDT_vect^[5] (⟨1000, 0⟩ : Timebase)) quiet :=
  millis_monotone ⟨1000, 0⟩ 5 (by decide)

theorem round_eq_of (q : ℚ) (k : Nat) (h0 : (k : ℚ) ≤ q + 1 / 2) (h1 : q + 1 / 2 < k + 1) :
    round q = (k : Int) := by
  rw [round_eq, Int.floor_eq_iff]
  exact ⟨by exact_mod_cast h0, by exact_mod_cast h1⟩

/-- C13. For every supported `F_CPU`, `micros()` returns
`(timer0_overflow * k) mod 2 ^ 32`, where the constant `k` is the duration in
microseconds of 256 clock cycles, `256 * 10 ^ 6 / F_CPU`, rounded to the
nearest integer. -/
theorem micros_scale_nearest (F_CPU : Nat) (s : Timebase)
    (h : F_CPU ∈ [16000, 128000, 600000, 1000000, 1200000, 4000000, 4800000, 8000000,
      9600000, 10000000, 12000000, 16000000]) :
    ∃ k : Nat, micros F_CPU s = some ((s.timer0_overflow * k) % 2 ^ 32) ∧
      (k : Int) = round ((256 * 10 ^ 6 : ℚ) / F_CPU) := by
  simp only [List.mem_cons, List.mem_singleton, List.not_mem_nil, or_false] at h
  rcases h with h | h | h | h | h | h | h | h | h | h | h | h <;> subst h
  · exact ⟨16000, rfl, (round_eq_of _ _ (by norm_num) (by norm_num)).symm⟩
  · exact ⟨2000, rfl, (round_eq_of _ _ (by norm_num) (by norm_num)).symm⟩
  · exact ⟨427, rfl, (round_eq_of _ _ (by norm_num) (by norm_num)).symm⟩
  · exact ⟨256, rfl, (round_eq_of _ _ (by norm_num) (by norm_num)).symm⟩
  · exact ⟨213, rfl, (round_eq_of _ _ (by norm_num) (by norm_num)).symm⟩
  · exact ⟨64, rfl, (round_eq_of _ _ (by norm_num) (by norm_num)).symm⟩
  · exact ⟨53, rfl, (round_eq_of _ _ (by norm_num) (by norm_num)).symm⟩
  · exact ⟨32, rfl, (round_eq_of _ _ (by norm_num) (by norm_num)).symm⟩
  · exact ⟨27, rfl, (round_eq_of _ _ (by norm_num) (by norm_num)).symm⟩
  · exact ⟨26, rfl, (round_eq_of _ _ (by norm_num) (by norm_num)).symm⟩
  · exact ⟨21, rfl, (round_eq_of _ _ (by norm_num) (by norm_num)).symm⟩
  · exact ⟨16, rfl, (round_eq_of _ _ (by norm_num) (by norm_num)).symm⟩

theorem micros_scale_nearest_witness :
    ∃ k : Nat, micros 9600000 ⟨0, 1000⟩ = some (((⟨0, 1000⟩ : Timebase).timer0_overflow * k) % 2 ^ 32) ∧
      (k : Int) = round ((256 * 10 ^ 6 : ℚ) / (9600000 : Nat)) :=
  micros_scale_nearest 9600000 ⟨0, 1000⟩ (by decide)

/-! ## Return value, leading zeros and digit values of the table-driven `printNumber` -/

/-- C14. For every `n` and every base value the table-driven `printNumber`
returns exactly the number of digit characters it wrote; the indicator
character it writes in front of them for a base that is not compiled in is not
counted. -/
theorem printNumber_table_returns_digit_count (cfg : Config) (n base : Nat)
    (h : cfg.hasTable = true) :
    ∃ ds : List Char, printNumber_table cfg n base =
      some ((if cfg.compiledIn base then [] else [cfg.indicatorChar]) ++ ds, ds.length) := by
  have key : ∀ (ind : List Char) (bt : List Nat), selectTable cfg base = some (ind, bt) →
      ∃ ds : List Char, printNumber_table cfg n base = some (ind ++ ds, ds.length) := by
    intro ind bt hsel
    obtain ⟨l, rfl, hne, hpos, hlen⟩ := tableOK_spec bt (selectTable_ok cfg base ind _ hsel)
    obtain ⟨out, hout, _⟩ := placeLoop_total cfg.flashAfter l hne hpos n 0 0 (by omega)
    refine ⟨out, ?_⟩
    unfold printNumber_table
    rw [hsel]
    simp only [hout, Nat.zero_add]
  cases hc : cfg.compiledIn base
  · obtain ⟨hsel, _⟩ := selectTable_default cfg base h hc
    simpa using key _ _ hsel
  · obtain ⟨hsel, _⟩ := selectTable_compiledIn cfg base hc
    simpa using key _ _ hsel

theorem printNumber_table_returns_digit_count_witness :
    ∃ ds : List Char, printNumber_table (decimalOnly .int) 40000 16 =
      some ((if (decimalOnly .int).compiledIn 16 then [] else [(decimalOnly .int).indicatorChar])
        ++ ds, ds.length) :=
  printNumber_table_returns_digit_count (decimalOnly .int) 40000 16 (by decide)

/-- The 32-bit type and base 2: for `n = 0x08800000` the first digit value is
17, so the first character written is the byte of program memory that lies at
`digits + 17`, past the end of the alphabet. -/
theorem printNumber_table_first_char_long_base2 :
    (∀ f : Nat → Char,
      printNumber_table ⟨.long, true, true, true, true, false, f⟩ 0x08800000 2 =
        some (f 17 :: List.replicate 23 '0', 24)) ∧
      (printNumber_table ⟨.long, true, true, true, true, false, fun _ => '0'⟩ 0x08800000 2
        = some (List.replicate 24 '0', 24)) := by
  exact ⟨fun _ => rfl, rfl⟩

theorem placeDigits_cons (b b2 : Nat) (bt : List Nat) (n : Nat) (hb : 0 < b) (hb2 : b2 ≠ 0) :
    placeDigits (b :: b2 :: bt) n =
      match placeDigits (b2 :: bt) (n % b) with
      | none => none
      | some rest => some (n / b % 256 :: rest) := by
  rw [placeDigits, subLoop_start b n hb]
  simp only [hb2, ne_eq, not_false_eq_true, if_true]

theorem placeDigits_last (b : Nat) (bt : List Nat) (n : Nat) (hb : 0 < b) :
    placeDigits (b :: 0 :: bt) n = some [n / b % 256] := by
  rw [placeDigits, subLoop_start b n hb]
  simp

/-- The bytes the place loop writes are among the characters that stand for the
digit values of `placeDigits`, in the same order. -/
theorem placeLoop_sublist_placeDigits (f : Nat → Char) :
    ∀ (l : List Nat), l ≠ [] → (∀ b ∈ l, 0 < b) → ∀ (n lz c : Nat),
      ∃ out cnt ds, placeLoop f (l ++ [0]) n lz c = some (out, cnt) ∧
        placeDigits (l ++ [0]) n = some ds ∧ ds.length = l.length ∧
        List.Sublist out (ds.map (pgm_read_digit f)) := by
  intro l
  induction l with
  | nil => intro h; exact absurd rfl h
  | cons b l ih =>
    intro _ hpos n lz c
    have hb : 0 < b := hpos b (List.mem_cons_self _ _)
    cases l with
    | nil =>
      refine ⟨_, _, _, placeLoop_last f b [] n lz c hb, placeDigits_last b [] n hb, rfl, ?_⟩
      by_cases hw : b = 1 ∨ (if lz ≠ 0 then lz else n / b % 256) ≠ 0
      · rw [if_pos hw]
        exact List.Sublist.refl _
      · rw [if_neg hw]
        exact List.nil_sublist _
    | cons b2 l2 =>
      have hb2 : b2 ≠ 0 :=
        Nat.pos_iff_ne_zero.mp (hpos b2 (List.mem_cons_of_mem _ (List.mem_cons_self _ _)))
      have hpos2 : ∀ x ∈ b2 :: l2, 0 < x := fun x hx => hpos x (List.mem_cons_of_mem _ hx)
      obtain ⟨out, cnt, ds, h1, h2, h3, h4⟩ := ih (List.cons_ne_nil _ _) hpos2 (n % b)
        (if lz ≠ 0 then lz else n / b % 256)
        (if b = 1 ∨ (if lz ≠ 0 then lz else n / b % 256) ≠ 0 then (c + 1) % 256 else c)
      rw [List.cons_append] at h1 h2
      refine ⟨(if b = 1 ∨ (if lz ≠ 0 then lz else n / b % 256) ≠ 0
          then [pgm_read_digit f (n / b % 256)] else []) ++ out, cnt, n / b % 256 :: ds,
        ?_, ?_, ?_, ?_⟩
      · rw [List.cons_append, List.cons_append, placeLoop_cons f b b2 _ n lz c hb hb2, h1]
      · rw [List.cons_append, List.cons_append, placeDigits_cons b b2 _ n hb hb2, h2]
      · simp only [List.length_cons, h3]
      · simp only [List.map_cons]
        by_cases hw : b = 1 ∨ (if lz ≠ 0 then lz else n / b % 256) ≠ 0
        · rw [if_pos hw]
          exact List.Sublist.cons₂ _ h4
        · rw [if_neg hw]
          exact List.Sublist.cons _ h4

/-- On a table of powers of `b` the digit values are the digits of `n`. -/
theorem placeDigits_places (b : Nat) (hb : 2 ≤ b) (hb16 : b ≤ 16) :
    ∀ (k n : Nat), n < b ^ (k + 1) →
      placeDigits (places b (k + 1)) n = some (padded b (k + 1) n) := by
  intro k
  induction k with
  | zero =>
    intro n hn
    have h := placeDigits_last 1 [] n (by norm_num)
    simp only [places, pow_zero, padded]
    rw [h, Nat.div_one, Nat.mod_eq_of_lt (show n < 256 by simp at hn; omega)]
  | succ k ih =>
    intro n hn
    have hpow : 0 < b ^ (k + 1) := by positivity
    have hpow2 : b ^ k ≠ 0 := by positivity
    obtain ⟨_, hd256⟩ := div_pow_lt b (k + 1) n hb hb16 hn
    rw [places_succ_succ, placeDigits_cons _ _ _ n hpow hpow2,
      show b ^ k :: places b k = places b (k + 1) from rfl, ih _ (Nat.mod_lt _ hpow), hd256]
    rfl

/-- Any table but the 32-bit `base2`: every digit value the table-driven
`printNumber` computes is below the base, hence an index into the alphabet. -/
theorem placeDigits_lt_base (ty : PrintIntType) (n base : Nat)
    (hbase : base = 16 ∨ base = 10 ∨ base = 8 ∨ base = 2)
    (hbug : ¬(ty = .long ∧ base = 2)) (hn : n < 2 ^ ty.bits) :
    ∃ ds, placeDigits (tableOf ty base) n = some ds ∧ ∀ d ∈ ds, d < base ∧ d < 16 := by
  obtain ⟨htab, hpow, _⟩ := tableOf_places ty base hbase hbug
  have hb : 2 ≤ base ∧ base ≤ 16 := by omega
  have hn2 : n < base ^ (topPlace ty base + 1) := lt_of_lt_of_le hn hpow
  refine ⟨_, by rw [htab]; exact placeDigits_places base hb.1 hb.2 _ n hn2, ?_⟩
  intro d hd
  have := padded_lt base hb.1 _ n hn2 d hd
  omega

/-- C16 fails on the code for the 32-bit type and base 2: for `n = 0x08800000`
the repeated subtraction at the place value `0x800000`, which follows
`0x10000000` in the table `base2`, counts up to the digit value 17, which is
neither below the base nor an index into the alphabet of 16 characters (nor
into the array `digits` of 17 bytes). -/
theorem placeDigits_long_base2 :
    placeDigits (base2 .long) 0x08800000 =
        some (0 :: 0 :: 0 :: 0 :: 17 :: List.replicate 23 0) ∧
      ¬ (17 < 2) ∧ ¬ (17 < 16) ∧ digits.get? 17 = none := by
  decide

/-! ## The fraction digits of `printFloat` -/

theorem roundingLoop_eq : ∀ (d : Nat) (r : ℚ), roundingLoop id d r = r / 10 ^ d := by
  intro d
  induction d with
  | zero => intro r; simp [roundingLoop]
  | succ d ih =>
    intro r
    rw [roundingLoop, ih, id_eq, pow_succ]
    field_simp
    left
    ring

/-- In decimal a value below ten is printed as its single digit, whatever the
width of the print type, where decimal can be printed. -/
theorem printNumber_decimal_digit (cfg : Config)
    (hdec : cfg.arbitrary = true ∨ cfg.useDec = true) (d : Nat) (hd : d < 10) :
    printNumber cfg d 10 = some ([pgm_read_digit cfg.flashAfter d], 1) := by
  unfold printNumber
  cases ha : cfg.arbitrary
  · have hu : cfg.useDec = true := by simpa [ha] using hdec
    have hc : cfg.compiledIn 10 = true := by simp [Config.compiledIn, hu]
    obtain ⟨hsel, _⟩ := selectTable_compiledIn cfg 10 hc
    obtain ⟨htab, _, hk⟩ := tableOf_places cfg.intType 10 (Or.inr (Or.inl rfl)) (by simp)
    rw [htab] at hsel
    have hpow : 10 ≤ 10 ^ (topPlace cfg.intType 10 + 1) := Nat.le_self_pow (by omega) 10
    simp only [Bool.false_eq_true, if_false]
    rw [printNumber_table_places cfg d 10 10 _ [] hsel (by norm_num) (by norm_num)
      (le_trans hk cfg.intType.bits_le) (lt_of_lt_of_le hd hpow)]
    simp [stripped_of_lt 10 _ d hd]
  · simp only [if_true]
    rw [printNumber_arbitrary_stripped cfg d 10 0 (by norm_num) (by norm_num)
      (by have := cfg.intType.bits_pos; simp only [Config.bits]; omega) (by simpa using hd)]
    simp [stripped]

theorem print_int_decimal_digit (cfg : Config)
    (hdec : cfg.arbitrary = true ∨ cfg.useDec = true) (d : Nat) (hd : d < 10) :
    print_int cfg (d : Int) DEC = some ([pgm_read_digit cfg.flashAfter d], 1) := by
  have hs : toSigned cfg (d : Int) = d := by
    unfold toSigned Config.bits
    cases cfg.intType <;> simp only [PrintIntType.bits] <;> norm_num <;> omega
  have hu : toUnsigned cfg (d : Int) = d := by
    unfold toUnsigned Config.bits
    cases cfg.intType <;> simp only [PrintIntType.bits] <;> norm_num <;> omega
  unfold print_int print_signed DEC
  rw [hs, if_neg (by omega), hu]
  exact printNumber_decimal_digit cfg hdec d hd

theorem pgm_read_digit_decimal (f : Nat → Char) (d : Nat) (hd : d < 10) :
    '0' ≤ pgm_read_digit f d ∧ pgm_read_digit f d ≤ '9' := by
  have h : pgm_read_digit f d = Char.ofNat (48 + d) := by
    interval_cases d <;> rfl
  rw [h]
  interval_cases d <;> decide

/-- With the remainder in `[0, 1)` the digit loop of `printFloat` writes one
decimal digit for each of the `digits` passes. -/
theorem fracLoop_digits (cfg : Config) (hdec : cfg.arbitrary = true ∨ cfg.useDec = true) :
    ∀ (d : Nat) (r : ℚ) (n : Nat), 0 ≤ r → r < 1 →
      ∃ frac total, fracLoop id cfg d r n = some (frac, total) ∧ frac.length = d ∧
        ∀ c ∈ frac, '0' ≤ c ∧ c ≤ '9' := by
  intro d
  induction d with
  | zero =>
    intro r n _ _
    exact ⟨[], n, rfl, rfl, by simp⟩
  | succ d ih =>
    intro r n h0 h1
    have hr0 : 0 ≤ r * 10 := by positivity
    have hz : ⌊r * 10⌋₊ < 10 := by
      rw [Nat.floor_lt hr0]
      push_cast
      linarith
    have hle : ((⌊r * 10⌋₊ : Nat) : ℚ) ≤ r * 10 := Nat.floor_le hr0
    have hlt : r * 10 < ((⌊r * 10⌋₊ : Nat) : ℚ) + 1 := Nat.lt_floor_add_one _
    have hconv := toInt16_eq (r * 10) ⌊r * 10⌋₊ hle hlt (by omega)
    have hprint := print_int_decimal_digit cfg hdec ⌊r * 10⌋₊ hz
    obtain ⟨frac, total, k1, k2, k3⟩ := ih (r * 10 - ((⌊r * 10⌋₊ : Nat) : Int))
      (size_t (n + 1)) (by push_cast; linarith) (by push_cast; linarith)
    refine ⟨pgm_read_digit cfg.flashAfter ⌊r * 10⌋₊ :: frac, total, ?_, ?_, ?_⟩
    · simp only [fracLoop, id_eq, hconv, hprint, k1, List.singleton_append]
    · simp [k2]
    · intro c hc
      rcases List.mem_cons.mp hc with h | h
      · rw [h]
        exact pgm_read_digit_decimal cfg.flashAfter _ hz
      · exact k3 c h

/-- C17, amended. With exact arithmetic, in a build that can print decimal (the
division-based `printNumber`, or the decimal table compiled in), for every
non-negative number whose rounded value is below `2 ^ 32` and every `digits`
value `d`: after the integer part `printFloat` writes nothing more when
`d = 0`, and when `d > 0` it writes one `.` followed by exactly `d` characters,
each of them in `0`..`9`. -/
theorem printFloat_fraction (cfg : Config) (hdec : cfg.arbitrary = true ∨ cfg.useDec = true)
    (number : ℚ) (d : Nat) (h0 : 0 ≤ number) (hlt : number + 1 / (2 * 10 ^ d) < 2 ^ 32) :
    ∃ ipart cnt frac total,
      print_ulong cfg ⌊number + 1 / (2 * 10 ^ d)⌋₊ DEC = some (ipart, cnt) ∧
        printFloat id cfg number d =
          some (ipart ++ (if d = 0 then [] else '.' :: frac), total) ∧
        frac.length = d ∧ ∀ c ∈ frac, '0' ≤ c ∧ c ≤ '9' := by
  have hround : roundingLoop id d (1 / 2) = 1 / (2 * 10 ^ d) := by
    rw [roundingLoop_eq]
    field_simp
  have hpos : (0 : ℚ) ≤ 1 / (2 * 10 ^ d) := by positivity
  have hq0 : 0 ≤ number + 1 / (2 * 10 ^ d) := by linarith
  have hle : ((⌊number + 1 / (2 * 10 ^ d)⌋₊ : Nat) : ℚ) ≤ number + 1 / (2 * 10 ^ d) :=
    Nat.floor_le hq0
  have hlt1 : number + 1 / (2 * 10 ^ d) < ((⌊number + 1 / (2 * 10 ^ d)⌋₊ : Nat) : ℚ) + 1 :=
    Nat.lt_floor_add_one _
  have hz : ⌊number + 1 / (2 * 10 ^ d)⌋₊ < 2 ^ 32 := by
    rw [Nat.floor_lt hq0]
    push_cast
    exact hlt
  have hint := toULong_eq _ _ hle hlt1 hz
  have hu : cfg.usable = true := by
    rcases hdec with h | h <;> simp [Config.usable, Config.hasTable, h]
  obtain ⟨ipart, cnt, hp, _, _⟩ := printNumber_total cfg
    (toUnsigned cfg ((⌊number + 1 / (2 * 10 ^ d)⌋₊ : Nat) : Int)) DEC hu (toUnsigned_lt cfg _)
  have hp2 : print_ulong cfg ⌊number + 1 / (2 * 10 ^ d)⌋₊ DEC = some (ipart, cnt) := hp
  obtain ⟨frac, total, k1, k2, k3⟩ := fracLoop_digits cfg hdec d
    (number + 1 / (2 * 10 ^ d) - ((⌊number + 1 / (2 * 10 ^ d)⌋₊ : Nat) : ℚ))
    (if d > 0 then size_t (size_t (0 + cnt) + 1) else size_t (0 + cnt))
    (by linarith) (by linarith)
  refine ⟨ipart, cnt, frac, total, hp2, ?_, k2, k3⟩
  have hneg : ¬ number < 0 := not_lt.mpr h0
  simp only [printFloat, hneg, if_false, hround, id_eq, hint, hp2, k1, List.nil_append]
  rcases Nat.eq_zero_or_pos d with hd | hd
  · subst hd
    have : frac = [] := List.length_eq_zero.mp k2
    simp [this]
  · have hd0 : d ≠ 0 := by omega
    simp [hd, hd0]

theorem printFloat_fraction_witness :
    ∃ ipart cnt frac total,
      print_ulong (allTables .long) ⌊(1999 / 1000 : ℚ) + 1 / (2 * 10 ^ 2)⌋₊ DEC
          = some (ipart, cnt) ∧
        printFloat id (allTables .long) (1999 / 1000) 2 =
          some (ipart ++ (if 2 = 0 then [] else '.' :: frac), total) ∧
        frac.length = 2 ∧ ∀ c ∈ frac, '0' ≤ c ∧ c ≤ '9' :=
  printFloat_fraction (allTables .long) (Or.inr rfl) (1999 / 1000) 2 (by norm_num)
    (by norm_num)

/-- C17, counterexample. In a 32-bit table-driven build with binary as the only
base compiled in, decimal falls back to the binary table: with exact arithmetic
`printFloat(1.5, 1)` writes `b1.b101`, so the `.` is followed by four
characters, the first of which is the indicator `b`. -/
theorem printFloat_binaryOnly_fraction :
    printFloat id (binaryOnly .long) (3 / 2) 1 =
      some (['b', '1', '.', 'b', '1', '0', '1'], 5) := by
  have hi5 : print_int (binaryOnly .long) ((5 : Nat) : Int) DEC = some (['b', '1', '0', '1'], 3) := by
    decide
  have hu1 : print_ulong (binaryOnly .long) 1 DEC = some (['b', '1'], 1) := by decide
  have hneg : ¬((3 : ℚ) / 2 < 0) := by norm_num
  have hround : roundingLoop id 1 (1 / 2) = 1 / 20 := by
    simp only [roundingLoop, id_eq]; norm_num
  have hint : toULong (3 / 2 + 1 / 20) = some 1 :=
    toULong_eq _ 1 (by norm_num) (by norm_num) (by norm_num)
  have hd1 : toInt16 ((3 / 2 + 1 / 20 - ((1 : Nat) : ℚ)) * 10) = some ((5 : Nat) : Int) :=
    toInt16_eq _ 5 (by norm_num) (by norm_num) (by norm_num)
  simp only [printFloat, hneg, if_false, hround, id_eq, hint, hu1, fracLoop, hd1, hi5]
  simp [size_t]

/-! ## `uS_new` and `delayMicroseconds` -/

/-- At 16, 10, 9.6, 8, 4.8 and 4 MHz `uS_new` assigns `us_loops` before the busy
loop reads it. -/
theorem uS_new_assigns (F_CPU us : Nat)
    (h : F_CPU ∈ [16000000, 10000000, 9600000, 8000000, 4800000, 4000000]) :
    ∃ low high loops, uS_new F_CPU us = some (low, high, loops) ∧
      (uS_new_setup F_CPU us).2 = some loops := by
  simp only [List.mem_cons, List.mem_singleton, List.not_mem_nil, or_false] at h
  rcases h with h | h | h | h | h | h <;> subst h <;> exact ⟨_, _, _, rfl, rfl⟩

/-- C18 fails on the code at 12 MHz: `delayMicroseconds` hands every delay above
99 to `uS_new`, and no branch of the `#if` chain of `uS_new` is taken for
`F_CPU == 12000000`, so the busy loop reads a `us_loops` that was never
assigned. -/
theorem uS_new_12MHz :
    delayMicroseconds 12000000 100 = .delegated 100 ∧
      (uS_new_setup 12000000 100).2 = none ∧ uS_new 12000000 100 = none := by
  decide

theorem sbiwLoop_succ (fuel us passes : Nat) :
    sbiwLoop (fuel + 1) us passes =
      if (us + 65535) % 65536 ≠ 0 then sbiwLoop fuel ((us + 65535) % 65536) (passes + 1)
      else some (passes + 1) := rfl

/-- Entered with a counter from 1 to 65535 the `sbiw`/`brne` loop makes that
many passes. -/
theorem sbiwLoop_eq :
    ∀ (fuel c passes : Nat), 1 ≤ c → c ≤ fuel → c ≤ 65535 →
      sbiwLoop fuel c passes = some (passes + c) := by
  intro fuel
  induction fuel with
  | zero => intro c passes h1 h2; omega
  | succ fuel ih =>
    intro c passes h1 h2 h3
    rw [sbiwLoop_succ]
    have hdec : (c + 65535) % 65536 = c - 1 := by omega
    rw [hdec]
    by_cases hc : c - 1 ≠ 0
    · rw [if_pos hc, ih (c - 1) (passes + 1) (by omega) (by omega) (by omega),
        Option.some.injEq]
      omega
    · rw [if_neg hc, Option.some.injEq]
      omega

/-- Entered with a counter of 0 the loop makes 65536 passes. -/
theorem sbiwLoop_zero (passes : Nat) : sbiwLoop 65536 0 passes = some (passes + 65536) := by
  have h := sbiwLoop_succ 65535 0 passes
  have hdec : (0 + 65535) % 65536 = 65535 := by norm_num
  rw [hdec, if_pos (by norm_num), sbiwLoop_eq 65535 65535 (passes + 1) (by norm_num)
    (le_refl _) (le_refl _)] at h
  have hsum : passes + 1 + 65535 = passes + 65536 := by omega
  rw [hsum] at h
  exact h

/-- C19 fails on the code: at 16 MHz `delayMicroseconds(1)` enters the final
loop with the counter 0 and makes 65536 passes where `delayMicroseconds(2)`
makes 4, and at 8 MHz the subtraction of the bias 3 from the argument 1 wraps
to a counter of 65532. -/
theorem delayPasses_not_monotone :
    delayMicroseconds 16000000 1 = .looped 0 ∧ delayPasses 16000000 1 = some 65536 ∧
      delayPasses 16000000 2 = some 4 ∧ delayPasses 8000000 1 = some 65532 ∧
      delayPasses 8000000 4 = some 2 := by
  refine ⟨rfl, ?_, ?_, ?_, ?_⟩
  · exact sbiwLoop_zero 0
  · exact sbiwLoop_eq 65536 4 0 (by norm_num) (by norm_num) (by norm_num)
  · exact sbiwLoop_eq 65536 65532 0 (by norm_num) (by norm_num) (by norm_num)
  · exact sbiwLoop_eq 65536 2 0 (by norm_num) (by norm_num) (by norm_num)

theorem delayPasses_of_counter (F_CPU us c : Nat)
    (h : delayMicroseconds F_CPU us = .looped c) (h1 : 1 ≤ c) (h2 : c ≤ 65535) :
    delayPasses F_CPU us = some c := by
  unfold delayPasses
  rw [h]
  have := sbiwLoop_eq 65536 c 0 h1 (by omega) h2
  rw [Nat.zero_add] at this
  exact this

/-- From the floor of its frequency class on, an argument that
`delayMicroseconds` handles in its own loop enters the loop with a counter from
1 to 65535 that does not decrease as the argument grows. -/
theorem delayMicroseconds_counter (F_CPU a b : Nat)
    (hF : F_CPU ∈ [128000, 600000, 1000000, 1200000, 4000000, 4800000, 8000000,
      9600000, 10000000, 12000000, 16000000])
    (ha : delayFloor F_CPU ≤ a) (hab : a ≤ b) (hb : b ≤ 65535)
    (hown : delayMicroseconds F_CPU b ≠ .delegated b) :
    ∃ ca cb, delayMicroseconds F_CPU a = .looped ca ∧ delayMicroseconds F_CPU b = .looped cb ∧
      1 ≤ ca ∧ ca ≤ cb ∧ cb ≤ 65535 := by
  simp only [List.mem_cons, List.mem_singleton, List.not_mem_nil, or_false] at hF
  rcases hF with h | h | h | h | h | h | h | h | h | h | h <;> subst h <;>
    simp only [delayFloor, delayMicroseconds, Nat.reduceEqDiff, or_self, or_false, false_or,
      or_true, true_or, if_true, if_false, Nat.reduceLT, Nat.reduceGT, and_self, and_true,
      and_false, reduceCtorEq] at ha hown ⊢ <;>
    (split_ifs at hown ⊢ <;>
      first
        | omega
        | exact absurd rfl hown
        | exact ⟨_, _, rfl, rfl, by omega, by omega, by omega⟩)

/-- From the floor of its frequency class on, the number of passes of the final
loop of `delayMicroseconds` does not decrease as the argument grows. -/
theorem delayPasses_monotone_above_floor (F_CPU a b : Nat)
    (hF : F_CPU ∈ [128000, 600000, 1000000, 1200000, 4000000, 4800000, 8000000,
      9600000, 10000000, 12000000, 16000000])
    (ha : delayFloor F_CPU ≤ a) (hab : a ≤ b) (hb : b ≤ 65535)
    (hown : delayMicroseconds F_CPU b ≠ .delegated b) :
    ∃ pa pb, delayPasses F_CPU a = some pa ∧ delayPasses F_CPU b = some pb ∧ pa ≤ pb := by
  obtain ⟨ca, cb, h1, h2, h3, h4, h5⟩ := delayMicroseconds_counter F_CPU a b hF ha hab hb hown
  exact ⟨ca, cb, delayPasses_of_counter F_CPU a ca h1 h3 (by omega),
    delayPasses_of_counter F_CPU b cb h2 (by omega) h5, h4⟩

/-- At 16 kHz, a frequency `micros()` is built for, `delayMicroseconds` has no
branch of its own and returns at once. -/
theorem delayMicroseconds_16kHz (us : Nat) : delayMicroseconds 16000 us = .returned := by
  unfold delayMicroseconds
  split <;> rfl

/-! ## `init` -/

/-- The mask `~_BV(WGM00) | ~_BV(WGM01)` has every bit set when the two bit
numbers differ, so the `&=` of the `PWM_NORMAL` branch changes nothing. -/
theorem init_TCCR0A_normal_unchanged (WGM00 WGM01 v : Nat) (h0 : WGM00 < 8) (h1 : WGM01 < 8)
    (hne : WGM00 ≠ WGM01) (hv : v < 256) : init_TCCR0A WGM00 WGM01 .PWM_NORMAL v = v := by
  have hmask : bitNot (_BV WGM00) ||| bitNot (_BV WGM01) = 2 ^ 16 - 1 := by
    interval_cases WGM00 <;> interval_cases WGM01 <;> first | exact absurd rfl hne | decide
  simp only [init_TCCR0A, hmask, Nat.and_pow_two_sub_one_eq_mod]
  omega

/-- C20 fails on the code: with `PWM_NORMAL` selected and both waveform bits set
on entry (`TCCR0A = 0x03`, `WGM00` bit 0 and `WGM01` bit 1), `init()` leaves
`TCCR0A` at `0x03`, since `~_BV(WGM00) | ~_BV(WGM01)` is the all-ones mask. -/
theorem init_TCCR0A_normal_keeps_WGM :
    init_TCCR0A 0 1 .PWM_NORMAL 0x03 = 0x03 ∧
      bitNot (_BV 0) ||| bitNot (_BV 1) = 0xFFFF ∧
      init_TCCR0A 0 1 .PWM_NORMAL 0x03 &&& (_BV 0 ||| _BV 1) ≠ 0 := by
  decide

/-! ## The buffer of the division-based `printNumber` -/

theorem Config.bits_eq (cfg : Config) : cfg.bits = 8 * cfg.sizeof := by
  unfold Config.bits Config.sizeof
  cases cfg.intType <;> rfl

theorem divLoop_succ (free n base : Nat) (str : List Nat) :
    divLoop (free + 1) n base str =
      if n / base ≠ 0 then
        divLoop free (n / base) base (digitByte (toSChar (n - base * (n / base))) :: str)
      else some (digitByte (toSChar (n - base * (n / base))) :: str) := rfl

/-- Every pass of the division loop stores one byte in front of `str`: the
string it ends with is longer than the one it starts with by the number of
passes, at least one and at most the number of bytes that were free. -/
theorem divLoop_length (base : Nat) :
    ∀ (free n : Nat) (str res : List Nat), divLoop free n base str = some res →
      str.length + 1 ≤ res.length ∧ res.length ≤ free + str.length := by
  intro free
  induction free with
  | zero =>
    intro n str res h
    exact absurd h (by simp [divLoop])
  | succ free ih =>
    intro n str res h
    rw [divLoop_succ] at h
    by_cases h0 : n / base ≠ 0
    · rw [if_pos h0] at h
      have := ih _ _ _ h
      simp only [List.length_cons] at this
      omega
    · rw [if_neg h0] at h
      have hres := Option.some.inj h
      rw [← hres]
      simp only [List.length_cons]
      omega

/-- C21. For every width of the print integer type, every `n` of that width and
every base value (a base below 2 being replaced by 10), the loop of the
division-based `printNumber` ends after at least one and at most
`8 * sizeof(n)` passes, each of which stores one digit character in front of
`str`; so no store goes below `buf[0]`, the start of the buffer of
`8 * sizeof(n) + 1` bytes, and at most `8 * sizeof(n)` characters are written. -/
theorem printNumber_arbitrary_in_buffer (cfg : Config) (n base : Nat)
    (hn : n < 2 ^ (8 * cfg.sizeof)) :
    ∃ str, divLoop (8 * cfg.sizeof) n (if base < 2 then 10 else base) [] = some str ∧
      1 ≤ str.length ∧ str.length ≤ 8 * cfg.sizeof ∧
      printNumber_arbitrary cfg n base = some (write_str str) ∧
      (write_str str).1.length ≤ 8 * cfg.sizeof := by
  have hb : 2 ≤ (if base < 2 then 10 else base) := by split <;> omega
  have hpos : 0 < 8 * cfg.sizeof := by
    rw [← cfg.bits_eq]
    exact cfg.intType.bits_pos
  obtain ⟨str, hstr, _⟩ := divLoop_total _ hb (8 * cfg.sizeof) n [] hpos hn
  obtain ⟨h1, h2⟩ := divLoop_length _ _ _ _ _ hstr
  simp only [List.length_nil, Nat.zero_add, Nat.add_zero] at h1 h2
  refine ⟨str, hstr, h1, h2, ?_, ?_⟩
  · unfold printNumber_arbitrary
    rw [cfg.bits_eq]
    simp only [hstr]
  · rw [write_str_length]
    exact le_trans (List.takeWhile_sublist _).length_le h2

theorem printNumber_arbitrary_in_buffer_witness :
    ∃ str, divLoop (8 * (arbitraryBase .byte).sizeof) 255 (if 2 < 2 then 10 else 2) []
        = some str ∧
      1 ≤ str.length ∧ str.length ≤ 8 * (arbitraryBase .byte).sizeof ∧
      printNumber_arbitrary (arbitraryBase .byte) 255 2 = some (write_str str) ∧
      (write_str str).1.length ≤ 8 * (arbitraryBase .byte).sizeof :=
  printNumber_arbitrary_in_buffer (arbitraryBase .byte) 255 2 (by decide)

/-- The bound is reached: the largest value of each width has as many binary
digits as the buffer has bytes in front of the final NUL. -/
theorem printNumber_arbitrary_fills_buffer :
    printNumber_arbitrary (arbitraryBase .byte) 255 2 = some (List.replicate 8 '1', 8) ∧
      printNumber_arbitrary (arbitraryBase .int) 65535 2 = some (List.replicate 16 '1', 16) ∧
      printNumber_arbitrary (arbitraryBase .long) 4294967295 2 =
        some (List.replicate 32 '1', 32) ∧
      printNumber_arbitrary (arbitraryBase .byte) 0 1 = some (['0'], 1) := by
  decide

end MicroCore
